import Mathlib

/-!
Verification of the ImageDatasetManager repository: a shallow embedding of
the catalog (data_manager.py), tag store (tag_manager.py), group store
(group_manager.py) and mass-rename orchestrator (image_processor.py),
together with theorems settling the specification claims.

Python text is modelled as lists of characters; Python dicts as
insertion-ordered association lists (update-in-place on existing key,
append on new key); Python sets as duplicate-free lists where only
membership is significant.
-/

/-- Python strings are modelled as lists of characters. -/
abbrev Str := List Char

/-- The characters Python's str.strip and the regex class \s treat as
whitespace (space, tab, newline, carriage return, vertical tab, form feed). -/
def isSpaceB (c : Char) : Bool :=
  c = ' ' || c = '\t' || c = '\n' || c = '\r' || c = Char.ofNat 11 || c = Char.ofNat 12

/-- Python str.strip(): remove whitespace from both ends. -/
def pyStrip (s : Str) : Str :=
  ((s.dropWhile isSpaceB).reverse.dropWhile isSpaceB).reverse

/-- re.sub(r of backslash-s-plus, single space): collapse each maximal run
of whitespace into one space character, scanning left to right (the flag
records whether the previous character was whitespace, i.e. whether a run
is already open). -/
def normWsAux : Bool → Str → Str
  | _, [] => []
  | inRun, c :: rest =>
    if isSpaceB c then
      if inRun then normWsAux true rest else ' ' :: normWsAux true rest
    else c :: normWsAux false rest

/-- re.sub of backslash-s-plus by a single space over a text. -/
def normWs (s : Str) : Str := normWsAux false s

/-- Scanner for re.split on the class comma-semicolon followed by \s*: the
flag records that a separator was just crossed and its trailing whitespace
is still being consumed; acc accumulates the current piece in reverse. -/
def splitSepAux : Bool → Str → Str → List Str
  | _, [], acc => [acc.reverse]
  | afterSep, c :: rest, acc =>
    if afterSep && isSpaceB c then splitSepAux true rest acc
    else if c = ',' || c = ';' then acc.reverse :: splitSepAux true rest []
    else splitSepAux false rest (c :: acc)

/-- re.split of the pattern class comma-semicolon followed by \s* over a
text. -/
def splitSep (s : Str) : List Str := splitSepAux false s []

/-- Python dict lookup (d.get(k)). -/
def dlookup (l : List (α × β)) (k : α) [DecidableEq α] : Option β :=
  match l with
  | [] => none
  | (k0, v0) :: rest => if k0 = k then some v0 else dlookup rest k

/-- Python dict assignment d[k] = v: update an existing key in place
(keeping its position) or append a new binding. -/
def dinsert (l : List (α × β)) (k : α) (v : β) [DecidableEq α] : List (α × β) :=
  match l with
  | [] => [(k, v)]
  | (k0, v0) :: rest => if k0 = k then (k, v) :: rest else (k0, v0) :: dinsert rest k v

/-- Python del d[k]: remove the binding for k (no-op when absent, callers
always guard with a membership test). -/
def derase (l : List (α × β)) (k : α) [DecidableEq α] : List (α × β) :=
  match l with
  | [] => []
  | (k0, v0) :: rest => if k0 = k then rest else (k0, v0) :: derase rest k

/-- Python set.add: membership-preserving insertion; the list representation
stays duplicate-free. -/
def sadd (l : List α) (x : α) [DecidableEq α] : List α :=
  if x ∈ l then l else l ++ [x]

/-- The keys of an association list are pairwise distinct (always true of a
Python dict). -/
def keysNodup (l : List (α × β)) : Prop := (l.map Prod.fst).Nodup

/-- Build records carrying their position, starting at a given index; models
loops that store len(acc) or the loop index into each record. -/
def withIndices (f : Nat → α → β) : Nat → List α → List β
  | _, [] => []
  | i, a :: rest => f i a :: withIndices f (i + 1) rest

/-! ## Tag manager (tag_manager.py) -/

/-- The TagManager state: available_tags is a Python set (modelled as a
duplicate-free list, membership significant), tag_categories and image_tags
are dicts, keyword_tag an optional string. -/
structure TagManager where
  available_tags : List Str
  tag_categories : List (Str × List Str)
  image_tags : List (Str × List Str)
  keyword_tag : Option Str
deriving DecidableEq, Repr

/-- The freshly constructed TagManager. -/
def TagManager.empty : TagManager := ⟨[], [], [], none⟩

/-- TagManager.add_tag: strip the tag, ignore if blank, add to
available_tags and to the category list (appending the category key first
when absent). -/
def TagManager.add_tag (tm : TagManager) (tag : Str) (category : Str) : TagManager :=
  if pyStrip tag = [] then tm
  else
    let tag := pyStrip tag
    let avail := sadd tm.available_tags tag
    let cats :=
      if (dlookup tm.tag_categories category).isNone
      then dinsert tm.tag_categories category []
      else tm.tag_categories
    let cur := (dlookup cats category).getD []
    let cats := if tag ∈ cur then cats else dinsert cats category (cur ++ [tag])
    { tm with available_tags := avail, tag_categories := cats }

/-- add_tag with its default category "general" (the call form used
everywhere else in the module). -/
def TagManager.add_tag1 (tm : TagManager) (tag : Str) : TagManager :=
  tm.add_tag tag ("general".toList)

/-- TagManager.add_tags_from_list. -/
def TagManager.add_tags_from_list (tm : TagManager) (tags : List Str) : TagManager :=
  tags.foldl (fun acc t => if pyStrip t = [] then acc else acc.add_tag1 (pyStrip t)) tm

/-- TagManager.remove_tag: discard from available_tags, remove the first
occurrence from each category list and each image tag list (Python
list.remove), and clear the keyword if it was this tag. -/
def TagManager.remove_tag (tm : TagManager) (tag : Str) : TagManager :=
  { available_tags := tm.available_tags.filter (fun t => t ≠ tag),
    tag_categories := tm.tag_categories.map (fun e => (e.1, e.2.erase tag)),
    image_tags := tm.image_tags.map (fun e => (e.1, e.2.erase tag)),
    keyword_tag := if tm.keyword_tag = some tag then none else tm.keyword_tag }

/-- TagManager.set_keyword_tag: only sets when the tag is registered. -/
def TagManager.set_keyword_tag (tm : TagManager) (tag : Str) : TagManager :=
  if tag ∈ tm.available_tags then { tm with keyword_tag := some tag } else tm

/-- TagManager.clear_keyword_tag. -/
def TagManager.clear_keyword_tag (tm : TagManager) : TagManager :=
  { tm with keyword_tag := none }

/-- TagManager.toggle_keyword_tag: clear when already the keyword, otherwise
set (note: with no membership check, unlike set_keyword_tag). -/
def TagManager.toggle_keyword_tag (tm : TagManager) (tag : Str) : TagManager :=
  if tm.keyword_tag = some tag then { tm with keyword_tag := none }
  else { tm with keyword_tag := some tag }

/-- The raw stored tag list of an image (image_tags.get(filename, []),
insertion order). -/
def TagManager.storedTags (tm : TagManager) (filename : Str) : List Str :=
  (dlookup tm.image_tags filename).getD []

/-- TagManager._sort_tags_with_keyword_first: Python tests
"not self.keyword_tag", so both an unset keyword and an empty-string keyword
leave the list untouched; otherwise the keyword moves to the front and all
other tags keep their relative order (occurrences equal to the keyword are
dropped from the tail by the comprehension filter). -/
def TagManager.sortKw (tm : TagManager) (tags : List Str) : List Str :=
  match tm.keyword_tag with
  | none => tags
  | some k =>
    if k = [] then tags
    else if k ∈ tags then k :: tags.filter (fun t => t ≠ k)
    else tags

/-- TagManager.get_tags_for_image. -/
def TagManager.get_tags_for_image (tm : TagManager) (filename : Str) : List Str :=
  tm.sortKw (tm.storedTags filename)

/-- The comprehension [tag.strip() for tag in tags if tag.strip()]. -/
def cleanTags (tags : List Str) : List Str :=
  tags.filterMap (fun t => if pyStrip t = [] then none else some (pyStrip t))

/-- TagManager.apply_tags_to_image: replace the image's tags with the
cleaned list and register each of them. -/
def TagManager.apply_tags_to_image (tm : TagManager) (filename : Str) (tags : List Str) :
    TagManager :=
  let clean := cleanTags tags
  let tm := { tm with image_tags := dinsert tm.image_tags filename clean }
  clean.foldl (fun acc t => acc.add_tag1 t) tm

/-- TagManager.add_tags_to_image: list(set(existing + cleaned)) then
delegate to apply_tags_to_image.  Python's set iteration order is
unspecified; it is modelled as dedup of the concatenation, one valid
enumeration (the spec marks the merged order as not contract-significant). -/
def TagManager.add_tags_to_image (tm : TagManager) (filename : Str) (tags : List Str) :
    TagManager :=
  let existing := (dlookup tm.image_tags filename).getD []
  let all := (existing ++ tags.filterMap
      (fun t => if pyStrip t = [] then none else some (pyStrip t))).dedup
  tm.apply_tags_to_image filename all

/-- TagManager.remove_tag_from_image (Python list.remove: first occurrence). -/
def TagManager.remove_tag_from_image (tm : TagManager) (filename : Str) (tag : Str) :
    TagManager :=
  match dlookup tm.image_tags filename with
  | none => tm
  | some ts =>
    if tag ∈ ts
    then { tm with image_tags := dinsert tm.image_tags filename (ts.erase tag) }
    else tm

/-- TagManager.clear_tags_from_image. -/
def TagManager.clear_tags_from_image (tm : TagManager) (filename : Str) : TagManager :=
  if (dlookup tm.image_tags filename).isSome
  then { tm with image_tags := derase tm.image_tags filename }
  else tm

/-- TagManager.rename_image: assign the old list to the new key, then delete
the old key. -/
def TagManager.rename_image (tm : TagManager) (oldF newF : Str) : TagManager :=
  match dlookup tm.image_tags oldF with
  | none => tm
  | some ts =>
    let m := dinsert tm.image_tags newF ts
    { tm with image_tags := derase m oldF }

/-- TagManager.remove_image. -/
def TagManager.remove_image (tm : TagManager) (filename : Str) : TagManager :=
  if (dlookup tm.image_tags filename).isSome
  then { tm with image_tags := derase tm.image_tags filename }
  else tm

/-- TagManager.clear_all_tags. -/
def TagManager.clear_all_tags (_tm : TagManager) : TagManager := ⟨[], [], [], none⟩

/-- TagManager.parse_tags_from_text: empty for blank text, otherwise split
on comma or semicolon plus trailing whitespace, strip each piece, drop empty
pieces, and collapse internal whitespace runs. -/
def parse_tags_from_text (text : Str) : List Str :=
  if pyStrip text = [] then []
  else
    (splitSep (pyStrip text)).filterMap (fun t =>
      if pyStrip t = [] then none else some (normWs (pyStrip t)))

/-- Python ", ".join. -/
def joinComma : List Str → Str
  | [] => []
  | [t] => t
  | t :: rest => t ++ ", ".toList ++ joinComma rest

/-- TagManager.format_tags_for_description: keyword-first order, joined with
comma and space. -/
def TagManager.format_tags_for_description (tm : TagManager) (tags : List Str) : Str :=
  joinComma (tm.sortKw tags)

/-! ## Catalog (data_manager.py) -/

/-- One image record of the catalog: the dict with keys filename, path,
description, row_index built by load_images_from_folder. -/
structure ImgData where
  filename : Str
  path : Str
  description : Str
  row_index : Nat
deriving DecidableEq, Repr

/-- The DataManager state. -/
structure DataManager where
  images_data : List ImgData
  current_folder : Option Str
deriving DecidableEq, Repr

/-- The freshly constructed DataManager. -/
def DataManager.empty : DataManager := ⟨[], none⟩

/-- str.lower restricted to the ASCII range, all that matters for the
extension check it is used in. -/
def asciiLower (s : Str) : Str := s.map Char.toLower

/-- str.endswith. -/
def strEndsWith (s suffix : Str) : Bool := suffix.isSuffixOf s

/-- The supported image extensions of data_manager.get_image_files. -/
def imageExtensions : List Str :=
  [".jpg".toList, ".jpeg".toList, ".png".toList, ".webp".toList]

/-- f.lower().endswith(image_extensions). -/
def isImageName (f : Str) : Bool :=
  imageExtensions.any (fun ext => strEndsWith (asciiLower f) ext)

/-- Code-point lexicographic order on strings, the order Python sorts
filenames by. -/
def strLeB : Str → Str → Bool
  | [], _ => true
  | _ :: _, [] => false
  | a :: as, b :: bs => if a = b then strLeB as bs else decide (a < b)

/-- Stable insertion of a string into a sorted list (helper for modelling
Python's stable list.sort). -/
def insertLe (x : Str) : List Str → List Str
  | [] => [x]
  | y :: ys => if strLeB y x then y :: insertLe x ys else x :: y :: ys

/-- Python list.sort() on filename strings (stable sort by code-point
order). -/
def pySort (l : List Str) : List Str := l.foldr insertLe []

/-- The folder contents as seen by data_manager, abstracting the operating
system calls: existence and directory checks, the directory listing with a
file test, the mapping produced by _load_descriptions_from_json, and the
stored contents of each sidecar .txt file. -/
structure FolderFS where
  folder_exists : Bool
  is_dir : Bool
  entries : List Str
  is_file : Str → Bool
  json_descriptions : List (Str × Str)
  txt_content : Str → Option Str

/-- DataManager.get_image_files: directory entries that are files with a
supported extension. -/
def get_image_files (fs : FolderFS) : List Str :=
  fs.entries.filter (fun f => fs.is_file f && isImageName f)

/-- Decimal rendering of a natural number (Python str(n)). -/
def natToStr (n : Nat) : Str := (Nat.repr n).toList

/-- os.path.basename for forward-slash paths. -/
def pathBasename (p : Str) : Str := (p.reverse.takeWhile (fun c => c ≠ '/')).reverse

/-- os.path.join for forward-slash paths. -/
def pathJoin (dir f : Str) : Str :=
  if dir = [] then f
  else if strEndsWith dir ("/".toList) then dir ++ f else dir ++ "/".toList ++ f

/-- os.path.splitext restricted to plain filenames: split at the last dot,
unless every character before that dot is itself a dot. -/
def splitext (f : Str) : Str × Str :=
  let n := (f.reverse.takeWhile (fun c => c ≠ '.')).length
  if n < f.length then
    let stem := f.take (f.length - n - 1)
    if stem.all (fun c => c = '.') then (f, [])
    else (stem, f.drop (f.length - n - 1))
  else (f, [])

/-- DataManager._get_description_for_image: the JSON mapping wins, then the
stripped contents of the sidecar .txt file, else empty. -/
def getDescriptionFor (fs : FolderFS) (filename : Str) : Str :=
  match dlookup fs.json_descriptions filename with
  | some d => d
  | none =>
    match fs.txt_content ((splitext filename).1 ++ ".txt".toList) with
    | some content => pyStrip content
    | none => []

/-- The (success, message, images_data) triple returned by
load_images_from_folder. -/
structure LoadResult where
  success : Bool
  message : Str
  data : List ImgData
deriving DecidableEq, Repr

/-- DataManager.load_images_from_folder: failure on a missing folder, a
non-directory, or an empty image listing leaves the state untouched;
otherwise the sorted image files become records indexed by position and the
state is replaced. -/
def DataManager.load_images_from_folder (dm : DataManager) (fs : FolderFS) (folder_path : Str) :
    LoadResult × DataManager :=
  if !fs.folder_exists then (⟨false, "Folder does not exist".toList, []⟩, dm)
  else if !fs.is_dir then (⟨false, "Path is not a directory".toList, []⟩, dm)
  else
    let image_files := get_image_files fs
    if image_files = [] then
      (⟨false, "No supported image files found in folder".toList, []⟩, dm)
    else
      let sorted := pySort image_files
      let images_data := withIndices (fun i f =>
        { filename := f, path := pathJoin folder_path f,
          description := getDescriptionFor fs f, row_index := i }) 0 sorted
      let message := "Loaded ".toList ++ natToStr images_data.length ++
        " images from ".toList ++ pathBasename folder_path
      (⟨true, message, images_data⟩,
        { images_data := images_data, current_folder := some folder_path })

/-- The reindexing loop of remove_image: row_index becomes the position in
the remaining list. -/
def reindex (l : List ImgData) : List ImgData :=
  withIndices (fun i r => { r with row_index := i }) 0 l

/-- DataManager.remove_image: delete the record at the index and renumber
the remaining ones. -/
def DataManager.remove_image (dm : DataManager) (index : Nat) : Bool × DataManager :=
  if index < dm.images_data.length then
    (true, { dm with images_data := reindex (dm.images_data.eraseIdx index) })
  else (false, dm)

/-- DataManager.append_keyword_to_all: no-op for a blank keyword; otherwise
every description is replaced by its stripped form followed by the stripped
keyword (comma+space separated when non-empty; the endswith tests of the
source are kept although a stripped string never ends in a space), and every
record is counted. -/
def DataManager.append_keyword_to_all (dm : DataManager) (keyword : Str) : Nat × DataManager :=
  if pyStrip keyword = [] then (0, dm)
  else
    let kw := pyStrip keyword
    let upd := fun (r : ImgData) =>
      let cur := pyStrip r.description
      if cur ≠ [] then
        if !strEndsWith cur (", ".toList) && !strEndsWith cur (" ".toList)
        then { r with description := cur ++ ", ".toList ++ kw }
        else { r with description := cur ++ kw }
      else { r with description := kw }
    (dm.images_data.length, { dm with images_data := dm.images_data.map upd })

/-- DataManager.get_images_with_descriptions: records whose description is
non-blank. -/
def DataManager.get_images_with_descriptions (dm : DataManager) : List ImgData :=
  dm.images_data.filter (fun r => pyStrip r.description ≠ [])

/-- DataManager.get_empty_description_count. -/
def DataManager.get_empty_description_count (dm : DataManager) : Nat :=
  (dm.images_data.filter (fun r => pyStrip r.description = [])).length

/-- DataManager.get_stats: the dict with the three count keys. -/
def DataManager.get_stats (dm : DataManager) : List (Str × Nat) :=
  [("total_images".toList, dm.images_data.length),
   ("with_descriptions".toList, dm.get_images_with_descriptions.length),
   ("without_descriptions".toList, dm.get_empty_description_count)]

/-! ## Group store (group_manager.py) -/

/-- An ImageGroup.  Group ids are modelled as natural numbers handed out by
a counter in the manager, standing in for the fresh uuid4 strings of the
source (uuid collisions are assumed absent); created_timestamp is always
None in the code paths under study and is omitted. -/
structure ImageGroup where
  group_id : Nat
  name : Str
  image_filenames : List Str
  expanded : Bool
deriving DecidableEq, Repr

/-- ImageGroup.add_image: append when absent. -/
def ImageGroup.add_image (g : ImageGroup) (filename : Str) : ImageGroup :=
  if filename ∈ g.image_filenames then g
  else { g with image_filenames := g.image_filenames ++ [filename] }

/-- ImageGroup.remove_image (Python list.remove: first occurrence). -/
def ImageGroup.removeImage (g : ImageGroup) (filename : Str) : ImageGroup :=
  { g with image_filenames := g.image_filenames.erase filename }

/-- The GroupManager state: groups and image_to_group are dicts, next_id is
the fresh-id counter standing in for uuid4. -/
structure GroupManager where
  groups : List (Nat × ImageGroup)
  image_to_group : List (Str × Nat)
  next_id : Nat
deriving DecidableEq, Repr

/-- The freshly constructed GroupManager. -/
def GroupManager.empty : GroupManager := ⟨[], [], 0⟩

/-- GroupManager.remove_image_from_group: when the image is mapped, erase it
from its group's member list (if that group still exists) and drop the
mapping. -/
def GroupManager.remove_image_from_group (gm : GroupManager) (filename : Str) :
    Bool × GroupManager :=
  match dlookup gm.image_to_group filename with
  | none => (false, gm)
  | some gid =>
    let gm :=
      match dlookup gm.groups gid with
      | some grp => { gm with groups := dinsert gm.groups gid (grp.removeImage filename) }
      | none => gm
    (true, { gm with image_to_group := derase gm.image_to_group filename })

/-- GroupManager.create_group: first pull every listed image out of its
current group, then store a new group holding a copy of the list and map
each image to the new id.  Returns the new id. -/
def GroupManager.create_group (gm : GroupManager) (name : Str) (image_filenames : List Str) :
    Nat × GroupManager :=
  let gm := image_filenames.foldl (fun g f => (g.remove_image_from_group f).2) gm
  let gid := gm.next_id
  let grp : ImageGroup := ⟨gid, name, image_filenames, true⟩
  let gm := { gm with groups := dinsert gm.groups gid grp, next_id := gid + 1 }
  let gm := { gm with
    image_to_group := image_filenames.foldl (fun m f => dinsert m f gid) gm.image_to_group }
  (gid, gm)

/-- GroupManager.add_images_to_group: fail when the group is unknown;
otherwise, per image, pull it out of its current group, append it to this
group and remap it.  (The group fetched before the loop in the source is an
alias of the stored object, so the stored group is re-read each iteration;
remove_image_from_group never deletes a group, hence the lookup cannot
fail.) -/
def GroupManager.add_images_to_group (gm : GroupManager) (gid : Nat)
    (image_filenames : List Str) : Bool × GroupManager :=
  if (dlookup gm.groups gid).isNone then (false, gm)
  else
    let gm := image_filenames.foldl (fun g f =>
      let g := (g.remove_image_from_group f).2
      match dlookup g.groups gid with
      | some grp =>
        { g with groups := dinsert g.groups gid (grp.add_image f),
                 image_to_group := dinsert g.image_to_group f gid }
      | none => { g with image_to_group := dinsert g.image_to_group f gid }) gm
    (true, gm)

/-- GroupManager.remove_images_from_group: fail when the group is unknown;
otherwise, per image, erase its first occurrence from the member list and
drop the mapping when it points at this group. -/
def GroupManager.remove_images_from_group (gm : GroupManager) (gid : Nat)
    (image_filenames : List Str) : Bool × GroupManager :=
  if (dlookup gm.groups gid).isNone then (false, gm)
  else
    let gm := image_filenames.foldl (fun g f =>
      let g :=
        match dlookup g.groups gid with
        | some grp => { g with groups := dinsert g.groups gid (grp.removeImage f) }
        | none => g
      if dlookup g.image_to_group f = some gid
      then { g with image_to_group := derase g.image_to_group f }
      else g) gm
    (true, gm)

/-- A consistency issue reported by validate_consistency (the formatted
message strings of the source carry exactly these data). -/
inductive Issue where
  | mappedToMissingGroup (filename : Str) (gid : Nat)
  | memberNotMapped (gid : Nat) (filename : Str)
deriving DecidableEq, Repr

/-- GroupManager.validate_consistency: one issue per mapping entry whose
group is gone, then one issue per group member whose mapping does not point
back at the group. -/
def GroupManager.validate_consistency (gm : GroupManager) : List Issue :=
  (gm.image_to_group.filterMap (fun e =>
    if (dlookup gm.groups e.2).isNone
    then some (Issue.mappedToMissingGroup e.1 e.2) else none)) ++
  (gm.groups.flatMap (fun e =>
    e.2.image_filenames.filterMap (fun f =>
      if dlookup gm.image_to_group f = some e.1 then none
      else some (Issue.memberNotMapped e.1 f))))

/-- One call of the claim's operation alphabet on the group store. -/
inductive GroupOp where
  | create (name : Str) (image_filenames : List Str)
  | addTo (gid : Nat) (image_filenames : List Str)
  | removeFrom (gid : Nat) (image_filenames : List Str)
deriving DecidableEq, Repr

/-- Apply one operation (discarding the returned id/flag, as the claim
quantifies only over the final state). -/
def GroupManager.applyOp (gm : GroupManager) : GroupOp → GroupManager
  | GroupOp.create name files => (gm.create_group name files).2
  | GroupOp.addTo gid files => (gm.add_images_to_group gid files).2
  | GroupOp.removeFrom gid files => (gm.remove_images_from_group gid files).2

/-- Run a sequence of operations from the empty store. -/
def GroupManager.run (ops : List GroupOp) : GroupManager :=
  ops.foldl GroupManager.applyOp GroupManager.empty

/-- The inductive invariant of the group store: dict keys are unique, every
mapping points to an existing group whose member list holds the image,
every group member maps back to its group, member lists are duplicate-free,
and every group id is below the freshness counter. -/
def GInv (gm : GroupManager) : Prop :=
  keysNodup gm.groups ∧ keysNodup gm.image_to_group ∧
  (∀ f gid, dlookup gm.image_to_group f = some gid →
    ∃ grp, dlookup gm.groups gid = some grp ∧ f ∈ grp.image_filenames) ∧
  (∀ gid grp, dlookup gm.groups gid = some grp →
    grp.image_filenames.Nodup ∧
    ∀ f ∈ grp.image_filenames, dlookup gm.image_to_group f = some gid) ∧
  (∀ gid grp, dlookup gm.groups gid = some grp → gid < gm.next_id)

/-! ## Mass rename (image_processor.py) -/

/-- Python str.zfill for the non-negative numbers used here. -/
def zfill (s : Str) (width : Nat) : Str :=
  if s.length < width then List.replicate (width - s.length) '0' ++ s else s

/-- One JSON entry {fileName, description} as handled by
_update_json_with_new_names. -/
structure JsonItem where
  fileName : Str
  description : Str
deriving DecidableEq, Repr

/-- The folder as seen by mass_rename_images: the directory listing and the
parsed contents of each .json file in it (keyed by the json filename, which
itself appears in the listing). -/
structure RenameFolder where
  files : List Str
  jsonContent : List (Str × List JsonItem)
deriving DecidableEq, Repr

/-- The proposed new name for position i: prefix_001.ext, or with scrambling
prefix_a001.ext.  The scramble character is chars[i] (with the source's 'z'
fallback past the end). -/
def newRenameName (pfx : Str) (numDigits : Nat) (withChar : Option Char) (i : Nat)
    (old : Str) : Str :=
  let ext := (splitext old).2
  match withChar with
  | some c => pfx ++ "_".toList ++ [c] ++ zfill (natToStr (i + 1)) numDigits ++ ext
  | none => pfx ++ "_".toList ++ zfill (natToStr (i + 1)) numDigits ++ ext

/-- ImageProcessor._check_rename_conflicts: every proposed name that is not
a rename-to-itself and already names an existing file. -/
def check_rename_conflicts (folderFiles : List Str) (pfx : Str) (image_files : List Str)
    (numDigits : Nat) (scrambleChars : List Char) : List Str :=
  (withIndices (fun i old =>
    let newF := newRenameName pfx numDigits
      (if scrambleChars ≠ [] then some (scrambleChars.getD i 'z') else none) i old
    if newF = old then none
    else if newF ∈ folderFiles then some newF else none) 0 image_files).filterMap id

/-- The results dict of a completed mass_rename_images run. -/
structure RenameStats where
  renamed_images : Nat
  renamed_descriptions : Nat
  errors : List Str
  total_images : Nat
  scrambled : Bool
deriving DecidableEq, Repr

/-- mass_rename_images either fails with an error message (dict with the
single key error) or reports statistics. -/
inductive MRResult where
  | error (msg : Str)
  | ok (stats : RenameStats)
deriving DecidableEq, Repr

/-- One iteration of the rename loop: rename the image (recording a failure
message when the file is missing, as the caught OSError does), rename the
sidecar .txt when present, and extend the old-to-new mapping. -/
def renameStep (pfx : Str) (numDigits : Nat) (scramble_order : Bool)
    (scrambleChars : List Char)
    (st : (Nat × Nat) × List Str × List (Str × Str) × RenameFolder) (i : Nat) (old : Str) :
    (Nat × Nat) × List Str × List (Str × Str) × RenameFolder :=
  let newF := newRenameName pfx numDigits
    (if scramble_order then some (scrambleChars.getD i 'z') else none) i old
  let ((ri, rd), errs, mapping, fld) := st
  if old ∈ fld.files then
    let fld := { fld with files := fld.files.erase old ++ [newF] }
    let mapping := dinsert mapping old newF
    let oldTxt := (splitext old).1 ++ ".txt".toList
    let newTxt := (splitext newF).1 ++ ".txt".toList
    if oldTxt ∈ fld.files then
      ((ri + 1, rd + 1), errs,            mapping,
        { fld with files := fld.files.erase oldTxt ++ [newTxt] })
    else ((ri + 1, rd), errs, mapping, fld)
  else ((ri, rd), errs ++ ["Failed to rename ".toList ++ old], mapping, fld)

/-- ImageProcessor._update_json_with_new_names: rewrite every fileName field
through the mapping in every .json file. -/
def updateJsonWithNewNames (fld : RenameFolder) (mapping : List (Str × Str)) : RenameFolder :=
  { fld with jsonContent := fld.jsonContent.map (fun e =>
      (e.1, e.2.map (fun it =>
        match dlookup mapping it.fileName with
        | some n => { it with fileName := n }
        | none => it))) }

/-- The scope selection at the top of mass_rename_images: either the whole
folder (its supported image files, sorted; its entries are plain files, the
isfile test of get_image_files) or the filenames of the given records; none
when the resulting list is empty. -/
def renameScope (fld : RenameFolder) (images_to_process : Option (List ImgData)) :
    Option (List Str) :=
  match images_to_process with
  | none =>
    let l := (fld.files.filter (fun f => isImageName f))
    if l = [] then none else some (pySort l)
  | some lst =>
    let l := lst.map (fun r => r.filename)
    if l = [] then none else some l

/-- ImageProcessor.mass_rename_images.  The scramble characters (random in
the source) are passed in as a parameter.  When the pre-flight conflict
check reports anything the call returns the error dict with the folder
untouched; otherwise the rename loop runs and the JSON files are
rewritten. -/
def mass_rename_images (fld : RenameFolder) (pfx : Str)
    (images_to_process : Option (List ImgData)) (scramble_order : Bool)
    (scrambleChars : List Char) : MRResult × RenameFolder :=
  match renameScope fld images_to_process with
  | none =>
    (MRResult.error (match images_to_process with
      | none => "No images found in the folder".toList
      | some _ => "No images specified for processing".toList), fld)
  | some image_files =>
    let numDigits := max (natToStr image_files.length).length 3
    let chars := if scramble_order then scrambleChars else []
    let conflicts := check_rename_conflicts fld.files pfx image_files numDigits chars
    if conflicts ≠ [] then
      (MRResult.error ("Naming conflicts detected. These files already exist: ".toList ++
        List.intercalate ", ".toList (conflicts.take 5) ++
        (if conflicts.length > 5 then "...".toList else [])), fld)
    else
      let init : (Nat × Nat) × List Str × List (Str × Str) × RenameFolder :=
        ((0, 0), [], [], fld)
      let res := (withIndices (fun i old => (i, old)) 0 image_files).foldl
        (fun st p => renameStep pfx numDigits scramble_order chars st p.1 p.2) init
      let ((ri, rd), errs, mapping, fld) := res
      let fld := updateJsonWithNewNames fld mapping
      (MRResult.ok ⟨ri, rd, errs, image_files.length, scramble_order⟩, fld)

/-! ## Remaining tag-manager operations over catalog records -/

/-- TagManager.export_to_text_descriptions: per record, images with tags get
the formatted keyword-first tag string as description (and are counted);
otherwise the description is set to empty only when it is already falsy. -/
def TagManager.export_to_text_descriptions (tm : TagManager) (l : List ImgData) :
    List ImgData × Nat :=
  l.foldl (fun (acc : List ImgData × Nat) r =>
    let tags := tm.get_tags_for_image r.filename
    if tags ≠ [] then
      (acc.1 ++ [{ r with description := tm.format_tags_for_description tags }], acc.2 + 1)
    else if r.description = [] then (acc.1 ++ [{ r with description := [] }], acc.2)
    else (acc.1 ++ [r], acc.2)) ([], 0)

/-! ## Predicates used by the claims -/

/-- The referential invariant of the tag store: every tag stored on an image
and the keyword tag, when set, are registered in available_tags. -/
def TMInvB (tm : TagManager) : Bool :=
  tm.image_tags.all (fun e => e.2.all (fun t => tm.available_tags.contains t)) &&
  tm.keyword_tag.all (fun k => tm.available_tags.contains k)

/-- A tag that survives the description round trip unchanged: non-empty,
free of the separator characters comma and semicolon, not starting or
ending in whitespace, and with its internal whitespace already collapsed. -/
def goodTag (t : Str) : Bool :=
  !t.isEmpty &&
  t.all (fun c => !(c = ',' || c = ';')) &&
  !isSpaceB (t.headD ' ') &&
  !isSpaceB (t.getLastD ' ') &&
  normWs t == t

/-- Modelled from the spec: the average description length over the
non-blank descriptions, 0 when there are none (the quantity the spec says
stats() returns; get_stats above is the code's actual dict). -/
def spec_average_description_length (dm : DataManager) : Nat :=
  let ds := dm.images_data.filter (fun r => pyStrip r.description ≠ [])
  if ds.length = 0 then 0 else (ds.map (fun r => r.description.length)).sum / ds.length

/-- The target filename mass_rename_images computes for position i of an
image list of length n (numbering width and scramble-character selection as
in the source). -/
def massTarget (pfx : Str) (n : Nat) (scramble_order : Bool) (scrambleChars : List Char)
    (i : Nat) (old : Str) : Str :=
  let numDigits := max (natToStr n).length 3
  let cs := if scramble_order then scrambleChars else []
  newRenameName pfx numDigits (if cs ≠ [] then some (cs.getD i 'z') else none) i old

/-! ## Concrete states used by counterexamples and witnesses -/

/-- A tag store in which the empty string is a registered tag and a stored
tag of i.jpg (reachable through load_tags_from_project). -/
def tmEmptyTag : TagManager := ⟨[[]], [], [("i.jpg".toList, ["a".toList, []])], none⟩

/-- A tag store with the registered tag kw stored on i.jpg after another
tag. -/
def tmKw : TagManager :=
  ⟨["kw".toList, "a".toList], [], [("i.jpg".toList, ["a".toList, "kw".toList])], none⟩

/-- apply_tags_to_image of the single tag "a,b" on the empty store. -/
def roundTm1 : TagManager :=
  TagManager.empty.apply_tags_to_image ("i.jpg".toList) ["a,b".toList]

/-- The round trip applied to roundTm1: its exported description parsed and
re-applied. -/
def roundTm2 : TagManager :=
  roundTm1.apply_tags_to_image ("i.jpg".toList)
    (parse_tags_from_text
      (roundTm1.format_tags_for_description (roundTm1.get_tags_for_image ("i.jpg".toList))))

/-- The two-image catalog of the appendKeywordToAll scenario: descriptions
"red hair" and "". -/
def dmScenario : DataManager :=
  ⟨[⟨"a.jpg".toList, "/f/a.jpg".toList, "red hair".toList, 0⟩,
    ⟨"b.jpg".toList, "/f/b.jpg".toList, [], 1⟩], some ("/f".toList)⟩

/-- One-image catalog with description of length 2. -/
def dmStatsA : DataManager := ⟨[⟨"a.jpg".toList, "p".toList, "ab".toList, 0⟩], none⟩

/-- One-image catalog with description of length 4. -/
def dmStatsB : DataManager := ⟨[⟨"a.jpg".toList, "p".toList, "abcd".toList, 0⟩], none⟩

/-- A record with a stale non-empty description and no tags. -/
def recStale : ImgData := ⟨"a.jpg".toList, "/f/a.jpg".toList, "old".toList, 0⟩

/-- A folder holding two images and a text file, every entry a file. -/
def fsLoadW : FolderFS :=
  ⟨true, true, ["b.jpg".toList, "a.png".toList, "notes.txt".toList],
    fun _ => true, [], fun _ => none⟩

/-- A path that does not exist. -/
def fsMissing : FolderFS := ⟨false, true, [], fun _ => true, [], fun _ => none⟩

/-- A folder where renaming a.jpg with prefix x collides with the untouched
existing file x_001.jpg. -/
def fldConflict : RenameFolder := ⟨["a.jpg".toList, "x_001.jpg".toList], []⟩

/-- The one-record scope renaming a.jpg. -/
def scopeA : List ImgData := [⟨"a.jpg".toList, "/f/a.jpg".toList, [], 0⟩]

/-! ## Association-list and set lemmas -/

theorem dlookup_dinsert_self [DecidableEq α] (l : List (α × β)) (k : α) (v : β) :
    dlookup (dinsert l k v) k = some v := by
  induction l with
  | nil => simp [dinsert, dlookup]
  | cons e rest ih =>
    by_cases h : e.1 = k
    · simp [dinsert, dlookup, h]
    · simp [dinsert, dlookup, h, ih]

theorem dlookup_dinsert_ne [DecidableEq α] (l : List (α × β)) (k k' : α) (v : β)
    (h : k' ≠ k) : dlookup (dinsert l k v) k' = dlookup l k' := by
  have hk : k ≠ k' := Ne.symm h
  induction l with
  | nil => simp [dinsert, dlookup, hk]
  | cons e rest ih =>
    by_cases he : e.1 = k
    · simp [dinsert, dlookup, he, hk]
    · simp [dinsert, dlookup, he, ih]

theorem dlookup_derase_ne [DecidableEq α] (l : List (α × β)) (k k' : α) (h : k' ≠ k) :
    dlookup (derase l k) k' = dlookup l k' := by
  have hk : k ≠ k' := Ne.symm h
  induction l with
  | nil => simp [derase]
  | cons e rest ih =>
    by_cases he : e.1 = k
    · simp [derase, he, dlookup, hk]
    · simp [derase, he, dlookup, ih]

theorem dlookup_eq_none [DecidableEq α] (l : List (α × β)) (k : α)
    (h : k ∉ l.map Prod.fst) : dlookup l k = none := by
  induction l with
  | nil => rfl
  | cons e rest ih =>
    simp only [List.map_cons, List.mem_cons, not_or] at h
    simp [dlookup, Ne.symm h.1, ih h.2]

theorem dlookup_derase_self [DecidableEq α] (l : List (α × β)) (k : α)
    (h : keysNodup l) : dlookup (derase l k) k = none := by
  induction l with
  | nil => simp [derase, dlookup]
  | cons e rest ih =>
    simp only [keysNodup, List.map_cons, List.nodup_cons] at h
    by_cases he : e.1 = k
    · simp only [derase, he, if_pos rfl]
      exact dlookup_eq_none rest k (he ▸ h.1)
    · simp [derase, he, dlookup, ih h.2]


theorem mem_dinsert [DecidableEq α] (l : List (α × β)) (k : α) (v : β) (e : α × β)
    (h : e ∈ dinsert l k v) : e ∈ l ∨ e = (k, v) := by
  induction l with
  | nil =>
    simp only [dinsert, List.mem_singleton] at h
    exact Or.inr h
  | cons e0 rest ih =>
    obtain ⟨k0, v0⟩ := e0
    by_cases he : k0 = k
    · simp only [dinsert, if_pos he, List.mem_cons] at h
      rcases h with h | h
      · exact Or.inr h
      · exact Or.inl (List.mem_cons_of_mem _ h)
    · simp only [dinsert, if_neg he, List.mem_cons] at h
      rcases h with h | h
      · exact Or.inl (List.mem_cons.mpr (Or.inl h))
      · rcases ih h with h2 | h2
        · exact Or.inl (List.mem_cons_of_mem _ h2)
        · exact Or.inr h2

theorem mem_derase [DecidableEq α] (l : List (α × β)) (k : α) (e : α × β)
    (h : e ∈ derase l k) : e ∈ l := by
  induction l with
  | nil => simp [derase] at h
  | cons e0 rest ih =>
    obtain ⟨k0, v0⟩ := e0
    by_cases he : k0 = k
    · simp only [derase, if_pos he] at h
      exact List.mem_cons_of_mem _ h
    · simp only [derase, if_neg he, List.mem_cons] at h
      rcases h with h | h
      · exact List.mem_cons.mpr (Or.inl h)
      · exact List.mem_cons_of_mem _ (ih h)

theorem dlookup_mem [DecidableEq α] (l : List (α × β)) (k : α) (v : β)
    (h : dlookup l k = some v) : (k, v) ∈ l := by
  induction l with
  | nil => simp [dlookup] at h
  | cons e0 rest ih =>
    obtain ⟨k0, v0⟩ := e0
    by_cases he : k0 = k
    · simp only [dlookup, if_pos he, Option.some.injEq] at h
      exact List.mem_cons.mpr (Or.inl (by rw [he, h]))
    · simp only [dlookup, if_neg he] at h
      exact List.mem_cons_of_mem _ (ih h)

theorem map_fst_dinsert [DecidableEq α] (l : List (α × β)) (k : α) (v : β)
    (h : k ∈ l.map Prod.fst) : (dinsert l k v).map Prod.fst = l.map Prod.fst := by
  induction l with
  | nil => simp at h
  | cons e0 rest ih =>
    obtain ⟨k0, v0⟩ := e0
    by_cases he : k0 = k
    · simp [dinsert, if_pos he, he]
    · simp only [List.map_cons, List.mem_cons, Ne.symm he, false_or] at h
      simp [dinsert, if_neg he, ih h]

theorem map_fst_dinsert_new [DecidableEq α] (l : List (α × β)) (k : α) (v : β)
    (h : k ∉ l.map Prod.fst) : (dinsert l k v).map Prod.fst = l.map Prod.fst ++ [k] := by
  induction l with
  | nil => simp [dinsert]
  | cons e0 rest ih =>
    obtain ⟨k0, v0⟩ := e0
    simp only [List.map_cons, List.mem_cons, not_or] at h
    have he : ¬ k0 = k := Ne.symm h.1
    simp [dinsert, if_neg he, ih h.2]

theorem keysNodup_dinsert [DecidableEq α] (l : List (α × β)) (k : α) (v : β)
    (h : keysNodup l) : keysNodup (dinsert l k v) := by
  by_cases hk : k ∈ l.map Prod.fst
  · unfold keysNodup
    rw [map_fst_dinsert l k v hk]
    exact h
  · unfold keysNodup
    rw [map_fst_dinsert_new l k v hk]
    rw [List.nodup_append]
    refine ⟨h, List.nodup_singleton k, ?_⟩
    intro x hx hxk
    rw [List.mem_singleton] at hxk
    exact hk (hxk ▸ hx)

theorem keysNodup_derase [DecidableEq α] (l : List (α × β)) (k : α)
    (h : keysNodup l) : keysNodup (derase l k) := by
  induction l with
  | nil => exact h
  | cons e0 rest ih =>
    obtain ⟨k0, v0⟩ := e0
    rw [keysNodup, List.map_cons, List.nodup_cons] at h
    by_cases he : k0 = k
    · simp only [derase, if_pos he]
      exact h.2
    · have hrec := ih h.2
      have hstep : derase ((k0, v0) :: rest) k = (k0, v0) :: derase rest k := by
        simp [derase, if_neg he]
      rw [hstep, keysNodup, List.map_cons, List.nodup_cons]
      refine ⟨?_, hrec⟩
      intro hmem
      obtain ⟨e1, he1, he1eq⟩ := List.mem_map.mp hmem
      exact h.1 (List.mem_map.mpr ⟨e1, mem_derase rest k e1 he1, he1eq⟩)

theorem mem_sadd [DecidableEq α] (l : List α) (x y : α) :
    y ∈ sadd l x ↔ y ∈ l ∨ y = x := by
  unfold sadd
  by_cases h : x ∈ l
  · simp only [if_pos h]
    constructor
    · exact Or.inl
    · rintro (hy | hy)
      · exact hy
      · exact hy ▸ h
  · simp [if_neg h]

theorem withIndices_length (f : Nat → α → β) (i : Nat) (l : List α) :
    (withIndices f i l).length = l.length := by
  induction l generalizing i with
  | nil => rfl
  | cons a t ih => simp [withIndices, ih]

theorem withIndices_map_index (g : Nat → α → ImgData)
    (hg : ∀ i a, (g i a).row_index = i) (i : Nat) (l : List α) :
    (withIndices g i l).map ImgData.row_index = List.range' i l.length := by
  induction l generalizing i with
  | nil => rfl
  | cons a t ih =>
    simp only [withIndices, List.map_cons, List.length_cons, List.range'_succ, hg, ih]

theorem mem_withIndices (f : Nat → α → β) (i : Nat) (l : List α) (j : Nat) (a0 : α)
    (hj : j < l.length) : f (i + j) (l.getD j a0) ∈ withIndices f i l := by
  induction l generalizing i j with
  | nil => simp at hj
  | cons a t ih =>
    cases j with
    | zero => simp [withIndices]
    | succ j0 =>
      simp only [withIndices, List.getD_cons_succ, List.mem_cons]
      right
      have := ih (i + 1) j0 (by simpa using hj)
      have harith : i + 1 + j0 = i + (j0 + 1) := by omega
      rw [harith] at this
      exact this

theorem length_filter_add_length_filter_not (l : List α) (p : α → Bool) :
    (l.filter p).length + (l.filter (fun a => !p a)).length = l.length := by
  induction l with
  | nil => rfl
  | cons a t ih =>
    by_cases h : p a
    · rw [List.filter_cons_of_pos h, List.filter_cons_of_neg (by simp [h])]
      simp only [List.length_cons]
      omega
    · rw [List.filter_cons_of_neg (by simp [h]),
        List.filter_cons_of_pos (by simp [h])]
      simp only [List.length_cons]
      omega

/-! ## String lemmas: strip, whitespace, suffixes -/

theorem dropWhile_head_false (p : α → Bool) (l : List α) (a : α) (t : List α)
    (h : l.dropWhile p = a :: t) : p a = false := by
  induction l with
  | nil => simp at h
  | cons b u ih =>
    by_cases hb : p b
    · rw [List.dropWhile_cons_of_pos hb] at h
      exact ih h
    · rw [List.dropWhile_cons_of_neg hb] at h
      cases h
      simpa using hb

theorem pyStrip_head_not_space (s : Str) (a : Char) (t : Str) (h : pyStrip s = a :: t) :
    isSpaceB a = false := by
  unfold pyStrip at h
  have hwlast : ((s.dropWhile isSpaceB).reverse.dropWhile isSpaceB).getLast? = some a := by
    rw [← List.head?_reverse, h]
    rfl
  obtain ⟨pre, hpre⟩ := List.dropWhile_suffix (l := (s.dropWhile isSpaceB).reverse) isSpaceB
  have hylast : (s.dropWhile isSpaceB).reverse.getLast? = some a := by
    rw [← hpre, List.getLast?_append, hwlast]
    rfl
  rw [List.getLast?_reverse] at hylast
  cases hd : s.dropWhile isSpaceB with
  | nil => rw [hd] at hylast; simp at hylast
  | cons b u =>
    rw [hd] at hylast
    simp only [List.head?_cons, Option.some.injEq] at hylast
    exact hylast ▸ dropWhile_head_false isSpaceB s b u hd

theorem pyStrip_getLast_not_space (s : Str) (a : Char) (t : Str) (h : pyStrip s = a :: t) :
    isSpaceB ((a :: t).getLastD ' ') = false := by
  unfold pyStrip at h
  have hlast : (a :: t).getLast? = ((s.dropWhile isSpaceB).reverse.dropWhile isSpaceB).head? := by
    rw [← h, List.getLast?_reverse]
  cases hw : (s.dropWhile isSpaceB).reverse.dropWhile isSpaceB with
  | nil =>
    rw [hw] at h
    simp at h
  | cons b u =>
    rw [hw] at hlast
    simp only [List.head?_cons] at hlast
    rw [List.getLastD_eq_getLast?, hlast]
    exact dropWhile_head_false isSpaceB _ b u hw

theorem pyStrip_eq_self (l : Str)
    (h1 : isSpaceB (l.headD ' ') = false)
    (h2 : isSpaceB (l.getLastD ' ') = false) : pyStrip l = l := by
  cases l with
  | nil => rfl
  | cons a t =>
    have hfront : (a :: t).dropWhile isSpaceB = a :: t :=
      List.dropWhile_cons_of_neg (by simp only [List.headD_cons] at h1; simp [h1])
    unfold pyStrip
    rw [hfront]
    cases hr : (a :: t).reverse with
    | nil => simp at hr
    | cons b u =>
      have hb : (a :: t).getLast? = some b := by
        rw [← List.head?_reverse, hr]
        rfl
      have hbspace : isSpaceB b = false := by
        rw [List.getLastD_eq_getLast?, hb] at h2
        simpa using h2
      have hback : (b :: u).dropWhile isSpaceB = b :: u :=
        List.dropWhile_cons_of_neg (by simp [hbspace])
      rw [hback, ← hr, List.reverse_reverse]

theorem pyStrip_idem (s : Str) : pyStrip (pyStrip s) = pyStrip s := by
  cases h : pyStrip s with
  | nil => rfl
  | cons a t =>
    exact pyStrip_eq_self (a :: t)
      (by simpa using pyStrip_head_not_space s a t h)
      (pyStrip_getLast_not_space s a t h)

theorem strEndsWith_getLast (x suf : Str) (c : Char) (hs : suf.getLast? = some c)
    (h : strEndsWith x suf = true) : x.getLast? = some c := by
  unfold strEndsWith at h
  rw [List.isSuffixOf_iff_suffix] at h
  obtain ⟨pre, hpre⟩ := h
  rw [← hpre, List.getLast?_append, hs]
  rfl

theorem stripped_not_endswith_space (s : Str) (a : Char) (t : Str) (h : pyStrip s = a :: t) :
    strEndsWith (pyStrip s) (" ".toList) = false ∧
    strEndsWith (pyStrip s) (", ".toList) = false := by
  have hlast := pyStrip_getLast_not_space s a t h
  constructor
  · by_contra hb
    simp only [Bool.not_eq_false] at hb
    have := strEndsWith_getLast (pyStrip s) (" ".toList) ' ' rfl hb
    rw [h] at this
    rw [List.getLastD_eq_getLast?, this] at hlast
    simp [isSpaceB] at hlast
  · by_contra hb
    simp only [Bool.not_eq_false] at hb
    have := strEndsWith_getLast (pyStrip s) (", ".toList) ' ' rfl hb
    rw [h] at this
    rw [List.getLastD_eq_getLast?, this] at hlast
    simp [isSpaceB] at hlast

/-! ## C10: failed loads leave the catalog untouched -/

/-- C10: whenever load_images_from_folder reports failure (missing folder,
non-directory path, or no supported image files), the in-memory catalog —
images_data and current_folder — keeps its previous value.  (In the source
the only mutations sit after the last statement that can raise, so the
caught-exception path changes nothing either.) -/
theorem load_failure_preserves_state (dm : DataManager) (fs : FolderFS) (p : Str)
    (h : (dm.load_images_from_folder fs p).1.success = false) :
    (dm.load_images_from_folder fs p).2 = dm := by
  unfold DataManager.load_images_from_folder at h ⊢
  by_cases h1 : fs.folder_exists
  · by_cases h2 : fs.is_dir
    · by_cases h3 : get_image_files fs = []
      · simp [h1, h2, h3]
      · simp [h1, h2, h3] at h
    · simp [h1, h2]
  · simp [h1]

/-- Witness for C10 at a folder that does not exist. -/
theorem load_failure_preserves_state_witness :
    (DataManager.empty.load_images_from_folder fsMissing ("/f".toList)).1.success = false ∧
    (DataManager.empty.load_images_from_folder fsMissing ("/f".toList)).2 = DataManager.empty :=
  ⟨by decide,
   load_failure_preserves_state DataManager.empty fsMissing ("/f".toList) (by decide)⟩

/-! ## C5: display indices are a contiguous 0..N-1 -/

/-- C5: after a successful load the records' row_index values are exactly
0, 1, ..., N-1 in order (no gaps or duplicates), and a successful
remove_image(i) shrinks the catalog by exactly one and renumbers the
remaining records contiguously from 0. -/
theorem display_indices_contiguous (dm : DataManager) (fs : FolderFS) (p : Str) (i : Nat) :
    ((dm.load_images_from_folder fs p).1.success = true →
      (dm.load_images_from_folder fs p).2.images_data.map ImgData.row_index =
        List.range (dm.load_images_from_folder fs p).2.images_data.length) ∧
    ((dm.remove_image i).1 = true →
      (dm.remove_image i).2.images_data.length + 1 = dm.images_data.length ∧
      (dm.remove_image i).2.images_data.map ImgData.row_index =
        List.range (dm.remove_image i).2.images_data.length) := by
  constructor
  · intro h
    unfold DataManager.load_images_from_folder at h ⊢
    by_cases h1 : fs.folder_exists
    · by_cases h2 : fs.is_dir
      · by_cases h3 : get_image_files fs = []
        · simp [h1, h2, h3] at h
        · simp only [h1, h2, h3, Bool.not_true, Bool.false_eq_true, if_false, if_neg,
            Bool.not_false, if_true]
          rw [withIndices_map_index _ (fun _ _ => rfl) 0, withIndices_length,
            List.range_eq_range']
      · simp [h1, h2] at h
    · simp [h1] at h
  · intro h
    unfold DataManager.remove_image at h ⊢
    by_cases hi : i < dm.images_data.length
    · simp only [hi, if_true, if_pos]
      constructor
      · rw [reindex, withIndices_length, List.length_eraseIdx]
        simp only [hi, if_true, if_pos]
        omega
      · rw [reindex, withIndices_map_index _ (fun _ _ => rfl) 0, withIndices_length,
          List.range_eq_range']
    · simp [hi] at h

/-- Witness for C5: a two-image folder load and a removal from the
two-image scenario catalog. -/
theorem display_indices_contiguous_witness :
    ((dmScenario.load_images_from_folder fsLoadW ("/f".toList)).1.success = true ∧
      (dmScenario.load_images_from_folder fsLoadW ("/f".toList)).2.images_data.map
        ImgData.row_index =
        List.range
          (dmScenario.load_images_from_folder fsLoadW ("/f".toList)).2.images_data.length) ∧
    ((dmScenario.remove_image 0).1 = true ∧
      (dmScenario.remove_image 0).2.images_data.length + 1 = dmScenario.images_data.length ∧
      (dmScenario.remove_image 0).2.images_data.map ImgData.row_index =
        List.range (dmScenario.remove_image 0).2.images_data.length) :=
  ⟨⟨by decide,
    (display_indices_contiguous dmScenario fsLoadW ("/f".toList) 0).1 (by decide)⟩,
   ⟨by decide,
    (display_indices_contiguous dmScenario fsLoadW ("/f".toList) 0).2 (by decide)⟩⟩

/-! ## C9: what stats() actually returns -/

/-- C9 counterexample: two catalogs with identical get_stats dicts but
different average description lengths (descriptions "ab" and "abcd"), so
stats() cannot be returning the average description length the claim
describes. -/
theorem get_stats_omits_average :
    dmStatsA.get_stats = dmStatsB.get_stats ∧
    spec_average_description_length dmStatsA ≠ spec_average_description_length dmStatsB := by
  decide

/-- C9 amended: get_stats returns exactly the three counts — total images,
images with a non-blank description, images without — which sum correctly;
no average-length entry is present. -/
theorem get_stats_fields (dm : DataManager) :
    dlookup dm.get_stats ("total_images".toList) = some dm.images_data.length ∧
    dlookup dm.get_stats ("with_descriptions".toList) =
      some (dm.images_data.filter (fun r => pyStrip r.description ≠ [])).length ∧
    dlookup dm.get_stats ("without_descriptions".toList) =
      some (dm.images_data.filter (fun r => pyStrip r.description = [])).length ∧
    dm.get_images_with_descriptions.length + dm.get_empty_description_count =
      dm.images_data.length ∧
    dm.get_stats.map Prod.fst =
      ["total_images".toList, "with_descriptions".toList, "without_descriptions".toList] := by
  refine ⟨?_, ?_, ?_, ?_, ?_⟩
  · simp [DataManager.get_stats, dlookup]
  · simp [DataManager.get_stats, dlookup, DataManager.get_images_with_descriptions]
  · simp [DataManager.get_stats, dlookup, DataManager.get_empty_description_count]
  · unfold DataManager.get_images_with_descriptions DataManager.get_empty_description_count
    have hcongr : dm.images_data.filter (fun r => pyStrip r.description = []) =
        dm.images_data.filter
          (fun r => !(fun q : ImgData => decide (pyStrip q.description ≠ [])) r) := by
      refine List.filter_congr ?_
      intro a _
      by_cases hd : pyStrip a.description = [] <;> simp [hd]
    rw [hcongr]
    exact length_filter_add_length_filter_not dm.images_data _
  · rfl

/-! ## C8: appendKeywordToAll policy and scenario -/

/-- C8 counterexample: on the scenario catalog the non-empty description
becomes "red hair, 1girl" (comma+space separator), not the "red hair 1girl"
the claim states. -/
theorem append_keyword_scenario_false :
    (dmScenario.append_keyword_to_all ("1girl".toList)).2.images_data.map ImgData.description =
      ["red hair, 1girl".toList, "1girl".toList] ∧
    (dmScenario.append_keyword_to_all ("1girl".toList)).2.images_data.map ImgData.description ≠
      ["red hair 1girl".toList, "1girl".toList] := by
  decide

/-- C8 amended: appendKeywordToAll is a no-op returning 0 on a blank word
or an empty catalog; otherwise it counts every record, sets empty
descriptions to the stripped word, and appends comma+space+word to the
stripped non-empty ones — so the scenario yields "red hair, 1girl" and
"1girl" with count 2. -/
theorem append_keyword_policy (dm : DataManager) (w : Str) :
    (pyStrip w = [] → dm.append_keyword_to_all w = (0, dm)) ∧
    (dm.images_data = [] → dm.append_keyword_to_all w = (0, dm)) ∧
    (dm.append_keyword_to_all w).1 = (if pyStrip w = [] then 0 else dm.images_data.length) ∧
    (pyStrip w ≠ [] → (dm.append_keyword_to_all w).2.images_data =
      dm.images_data.map (fun r =>
        if pyStrip r.description = [] then { r with description := pyStrip w }
        else
          { r with description := pyStrip r.description ++ ", ".toList ++ pyStrip w })) ∧
    ((dmScenario.append_keyword_to_all ("1girl".toList)).1 = 2 ∧
      (dmScenario.append_keyword_to_all ("1girl".toList)).2.images_data.map
        ImgData.description = ["red hair, 1girl".toList, "1girl".toList]) := by
  refine ⟨?_, ?_, ?_, ?_, by decide, by decide⟩
  · intro h
    unfold DataManager.append_keyword_to_all
    rw [if_pos h]
  · intro h
    unfold DataManager.append_keyword_to_all
    by_cases hw : pyStrip w = []
    · rw [if_pos hw]
    · rw [if_neg hw]
      cases dm
      simp_all
  · unfold DataManager.append_keyword_to_all
    by_cases hw : pyStrip w = []
    · rw [if_pos hw, if_pos hw]
    · rw [if_neg hw, if_neg hw]
  · intro hw
    unfold DataManager.append_keyword_to_all
    rw [if_neg hw]
    refine List.map_congr_left ?_
    intro r _
    by_cases hd : pyStrip r.description = []
    · simp [hd]
    · rw [if_pos (by simpa using hd)]
      cases hcur : pyStrip r.description with
      | nil => exact absurd hcur hd
      | cons a t =>
        obtain ⟨he1, he2⟩ := stripped_not_endswith_space r.description a t hcur
        rw [hcur] at he1 he2
        have hcond : (!strEndsWith (a :: t) (", ".toList) &&
            !strEndsWith (a :: t) (" ".toList)) = true := by
          simp only [Bool.and_eq_true, Bool.not_eq_true']
          exact ⟨he2, he1⟩
        rw [if_pos hcond, if_neg (by simp : ¬(a :: t = []))]

/-- Witness for C8 on the scenario catalog: a blank word is a no-op and a
real word rewrites every description by the policy. -/
theorem append_keyword_policy_witness :
    (pyStrip ("  ".toList) = [] ∧
      dmScenario.append_keyword_to_all ("  ".toList) = (0, dmScenario)) ∧
    (pyStrip ("1girl".toList) ≠ [] ∧
      (dmScenario.append_keyword_to_all ("1girl".toList)).2.images_data =
        dmScenario.images_data.map (fun r =>
          if pyStrip r.description = []
          then { r with description := pyStrip ("1girl".toList) }
          else
            { r with
              description := pyStrip r.description ++ ", ".toList ++
                pyStrip ("1girl".toList) })) :=
  ⟨⟨by decide, (append_keyword_policy dmScenario ("  ".toList)).1 (by decide)⟩,
   ⟨by decide, (append_keyword_policy dmScenario ("1girl".toList)).2.2.2.1 (by decide)⟩⟩

/-! ## C7: exportToDescriptions -/

theorem filter_ne_idem (k : Str) (l : List Str) :
    (l.filter (fun t => t ≠ k)).filter (fun t => t ≠ k) = l.filter (fun t => t ≠ k) := by
  rw [List.filter_filter]
  refine List.filter_congr ?_
  intro a _
  by_cases h : a = k <;> simp [h]

theorem sortKw_idem (tm : TagManager) (tags : List Str) :
    tm.sortKw (tm.sortKw tags) = tm.sortKw tags := by
  cases hkw : tm.keyword_tag with
  | none => simp [TagManager.sortKw, hkw]
  | some k =>
    simp only [TagManager.sortKw, hkw]
    by_cases hk : k = []
    · simp [hk]
    · by_cases hmem : k ∈ tags
      · rw [if_neg hk, if_pos hmem, if_neg hk,
          if_pos (List.mem_cons_self k (tags.filter (fun t => t ≠ k)))]
        congr 1
        rw [List.filter_cons_of_neg (by simp)]
        exact filter_ne_idem k tags
      · rw [if_neg hk, if_neg hmem, if_neg hk, if_neg hmem]

theorem foldl_build (step : (List ImgData × Nat) → ImgData → (List ImgData × Nat))
    (f : ImgData → ImgData) (p : ImgData → Bool)
    (hstep : ∀ acc r, step acc r = (acc.1 ++ [f r], acc.2 + (if p r then 1 else 0)))
    (l : List ImgData) : ∀ (acc : List ImgData) (n : Nat),
    l.foldl step (acc, n) = (acc ++ l.map f, n + (l.filter p).length) := by
  induction l with
  | nil => intro acc n; simp
  | cons r t ih =>
    intro acc n
    rw [List.foldl_cons, hstep (acc, n) r]
    rw [ih (acc ++ [f r]) (n + if p r then 1 else 0)]
    by_cases hp : p r
    · simp [hp, List.filter_cons, Prod.ext_iff]
      omega
    · simp [hp, List.filter_cons, Prod.ext_iff]

/-- C7 counterexample: a record with no tags but a stale description keeps
it; the claim's "clears the description for every record whose image has no
tags" fails at this input. -/
theorem export_keeps_stale_description :
    TagManager.empty.get_tags_for_image recStale.filename = [] ∧
    (TagManager.empty.export_to_text_descriptions [recStale]).1.map ImgData.description =
      ["old".toList] ∧
    "old".toList ≠ ([] : Str) := by
  decide

/-- C7 amended: exportToDescriptions maps every tagged record's description
to the comma-joined presentation-order tag list (keyword first), counts
exactly those records, and leaves untagged records unchanged (their
existing description, empty or not, is preserved; only an already-empty one
is re-set to empty). -/
theorem export_to_descriptions_characterization (tm : TagManager) (l : List ImgData) :
    tm.export_to_text_descriptions l =
      (l.map (fun r =>
        if tm.get_tags_for_image r.filename ≠ [] then
          { r with description :=
            tm.format_tags_for_description (tm.get_tags_for_image r.filename) }
        else r),
       (l.filter (fun r => tm.get_tags_for_image r.filename ≠ [])).length) ∧
    (∀ f, tm.format_tags_for_description (tm.get_tags_for_image f) =
      joinComma (tm.get_tags_for_image f)) := by
  constructor
  · unfold TagManager.export_to_text_descriptions
    rw [foldl_build _
      (fun r =>
        if tm.get_tags_for_image r.filename ≠ [] then
          { r with description :=
            tm.format_tags_for_description (tm.get_tags_for_image r.filename) }
        else r)
      (fun r => decide (tm.get_tags_for_image r.filename ≠ [])) ?hstep l [] 0]
    · simp
    case hstep =>
      intro acc r
      by_cases htags : tm.get_tags_for_image r.filename = []
      · by_cases hdesc : r.description = []
        · have hr : { r with description := ([] : Str) } = r := by
            cases r
            simp only [ImgData.mk.injEq, and_true, true_and]
            exact hdesc.symm
          simp [htags, hdesc, hr]
        · simp [htags, hdesc]
      · simp [htags]
  · intro f
    unfold TagManager.format_tags_for_description TagManager.get_tags_for_image
    rw [sortKw_idem]

/-! ## C3: keyword-first presentation order -/

/-- C3 counterexample: the empty string can be a registered tag (legacy
tags.json), set_keyword_tag accepts it, yet get_tags_for_image returns the
raw order because Python treats an empty-string keyword as falsy — the
keyword is not moved to position 0. -/
theorem empty_keyword_breaks_presentation :
    ([] ∈ tmEmptyTag.available_tags) ∧
    ([] ∈ (tmEmptyTag.set_keyword_tag []).storedTags ("i.jpg".toList)) ∧
    (tmEmptyTag.set_keyword_tag []).get_tags_for_image ("i.jpg".toList) =
      ["a".toList, []] ∧
    (tmEmptyTag.set_keyword_tag []).get_tags_for_image ("i.jpg".toList) ≠
      [] :: ((tmEmptyTag.set_keyword_tag []).storedTags ("i.jpg".toList)).filter
        (fun x => x ≠ ([] : Str)) := by
  decide

/-- C3 amended: for a registered non-empty tag t, after set_keyword_tag(t)
every image whose stored list contains t presents as t followed by the
other stored tags in their original relative order; after clear_keyword_tag
the presentation order is the raw stored order. -/
theorem keyword_presentation_order (tm : TagManager) (t f : Str)
    (hreg : t ∈ tm.available_tags) (hne : t ≠ []) :
    (t ∈ (tm.set_keyword_tag t).storedTags f →
      (tm.set_keyword_tag t).get_tags_for_image f =
        t :: ((tm.set_keyword_tag t).storedTags f).filter (fun x => x ≠ t)) ∧
    tm.clear_keyword_tag.get_tags_for_image f = tm.clear_keyword_tag.storedTags f := by
  constructor
  · intro hmem
    unfold TagManager.set_keyword_tag at hmem ⊢
    rw [if_pos hreg] at hmem ⊢
    unfold TagManager.get_tags_for_image
    simp only [TagManager.sortKw]
    rw [if_neg hne, if_pos hmem]
  · unfold TagManager.get_tags_for_image
    simp [TagManager.clear_keyword_tag, TagManager.sortKw]

/-- Witness for C3 at a store with registered tags kw and a, where i.jpg
stores [a, kw]. -/
theorem keyword_presentation_order_witness :
    ("kw".toList ∈ tmKw.available_tags ∧ "kw".toList ≠ ([] : Str)) ∧
    (("kw".toList ∈ (tmKw.set_keyword_tag ("kw".toList)).storedTags ("i.jpg".toList) →
      (tmKw.set_keyword_tag ("kw".toList)).get_tags_for_image ("i.jpg".toList) =
        "kw".toList :: ((tmKw.set_keyword_tag ("kw".toList)).storedTags
          ("i.jpg".toList)).filter (fun x => x ≠ "kw".toList)) ∧
      tmKw.clear_keyword_tag.get_tags_for_image ("i.jpg".toList) =
        tmKw.clear_keyword_tag.storedTags ("i.jpg".toList)) :=
  ⟨⟨by decide, by decide⟩,
   keyword_presentation_order tmKw ("kw".toList) ("i.jpg".toList) (by decide) (by decide)⟩

/-! ## C2: the referential invariant of the tag store -/

theorem TMInv_iff (tm : TagManager) :
    TMInvB tm = true ↔
      ((∀ e ∈ tm.image_tags, ∀ t ∈ e.2, t ∈ tm.available_tags) ∧
       (∀ k, tm.keyword_tag = some k → k ∈ tm.available_tags)) := by
  unfold TMInvB
  rw [Bool.and_eq_true, List.all_eq_true]
  apply and_congr
  · constructor
    · intro h e he t ht
      have h2 := h e he
      rw [List.all_eq_true] at h2
      exact List.elem_iff.mp (h2 t ht)
    · intro h e he
      rw [List.all_eq_true]
      intro t ht
      exact List.elem_iff.mpr (h e he t ht)
  · cases hkw : tm.keyword_tag with
    | none => simp
    | some k =>
      simp only [Option.all]
      constructor
      · intro h k2 hk2
        cases hk2
        exact List.elem_iff.mp h
      · intro h
        exact List.elem_iff.mpr (h k rfl)

theorem add_tag_image_tags (tm : TagManager) (tag cat : Str) :
    (tm.add_tag tag cat).image_tags = tm.image_tags := by
  unfold TagManager.add_tag
  by_cases h : pyStrip tag = [] <;> simp [h]

theorem add_tag_keyword (tm : TagManager) (tag cat : Str) :
    (tm.add_tag tag cat).keyword_tag = tm.keyword_tag := by
  unfold TagManager.add_tag
  by_cases h : pyStrip tag = [] <;> simp [h]

theorem add_tag_avail_mono (tm : TagManager) (tag cat x : Str)
    (hx : x ∈ tm.available_tags) : x ∈ (tm.add_tag tag cat).available_tags := by
  unfold TagManager.add_tag
  by_cases h : pyStrip tag = []
  · simp [h, hx]
  · simp only [h, if_neg h]
    exact (mem_sadd _ _ _).mpr (Or.inl hx)

theorem add_tag_avail_self (tm : TagManager) (tag cat : Str) (h : pyStrip tag ≠ []) :
    pyStrip tag ∈ (tm.add_tag tag cat).available_tags := by
  unfold TagManager.add_tag
  simp only [h, if_neg h]
  exact (mem_sadd _ _ _).mpr (Or.inr rfl)

theorem add_tag_preserves_inv (tm : TagManager) (tag cat : Str)
    (h : TMInvB tm = true) : TMInvB (tm.add_tag tag cat) = true := by
  rw [TMInv_iff] at h ⊢
  refine ⟨?_, ?_⟩
  · intro e he t ht
    rw [add_tag_image_tags] at he
    exact add_tag_avail_mono tm tag cat t (h.1 e he t ht)
  · intro k hk
    rw [add_tag_keyword] at hk
    exact add_tag_avail_mono tm tag cat k (h.2 k hk)

theorem foldl_add1_image_tags (l : List Str) (tm0 : TagManager) :
    (l.foldl (fun acc t => acc.add_tag1 t) tm0).image_tags = tm0.image_tags := by
  induction l generalizing tm0 with
  | nil => rfl
  | cons a t ih =>
    rw [List.foldl_cons, ih]
    exact add_tag_image_tags tm0 a _

theorem foldl_add1_keyword (l : List Str) (tm0 : TagManager) :
    (l.foldl (fun acc t => acc.add_tag1 t) tm0).keyword_tag = tm0.keyword_tag := by
  induction l generalizing tm0 with
  | nil => rfl
  | cons a t ih =>
    rw [List.foldl_cons, ih]
    exact add_tag_keyword tm0 a _

theorem foldl_add1_avail_mono (l : List Str) (tm0 : TagManager) (x : Str)
    (hx : x ∈ tm0.available_tags) :
    x ∈ (l.foldl (fun acc t => acc.add_tag1 t) tm0).available_tags := by
  induction l generalizing tm0 with
  | nil => exact hx
  | cons a t ih =>
    rw [List.foldl_cons]
    exact ih _ (add_tag_avail_mono tm0 a _ x hx)

theorem foldl_add1_avail_self (l : List Str) (tm0 : TagManager) (c : Str)
    (hc : c ∈ l) (hs : pyStrip c = c) (hne : c ≠ []) :
    c ∈ (l.foldl (fun acc t => acc.add_tag1 t) tm0).available_tags := by
  induction l generalizing tm0 with
  | nil => simp at hc
  | cons a t ih =>
    rw [List.foldl_cons]
    rcases List.mem_cons.mp hc with hca | hct
    · subst hca
      refine foldl_add1_avail_mono t _ c ?_
      have h0 : pyStrip c ≠ [] := by rw [hs]; exact hne
      have h1 := add_tag_avail_self tm0 c ("general".toList) h0
      rw [hs] at h1
      exact h1
    · exact ih _ hct

theorem mem_cleanTags (ts : List Str) (c : Str) (h : c ∈ cleanTags ts) :
    pyStrip c = c ∧ c ≠ [] := by
  unfold cleanTags at h
  simp only [List.mem_filterMap] at h
  obtain ⟨t, _, hc⟩ := h
  by_cases hs : pyStrip t = []
  · simp [hs] at hc
  · rw [if_neg hs] at hc
    cases hc
    exact ⟨pyStrip_idem t, hs⟩

theorem apply_tags_preserves_inv (tm : TagManager) (f : Str) (ts : List Str)
    (h : TMInvB tm = true) : TMInvB (tm.apply_tags_to_image f ts) = true := by
  rw [TMInv_iff] at h ⊢
  unfold TagManager.apply_tags_to_image
  refine ⟨?_, ?_⟩
  · intro e he t ht
    rw [foldl_add1_image_tags] at he
    rcases mem_dinsert tm.image_tags f (cleanTags ts) e he with hold | hnew
    · exact foldl_add1_avail_mono _ _ t (h.1 e hold t ht)
    · rw [hnew] at ht
      obtain ⟨hstrip, hne⟩ := mem_cleanTags ts t ht
      exact foldl_add1_avail_self _ _ t ht hstrip hne
  · intro k hk
    rw [foldl_add1_keyword] at hk
    exact foldl_add1_avail_mono _ _ k (h.2 k hk)

/-- C2 counterexample: toggle_keyword_tag performs no membership check, so
toggling an unregistered tag leaves keyword_tag outside available_tags; and
remove_tag only removes the first occurrence from an image's list, so a
duplicated stored tag survives the cascade while leaving available_tags. -/
theorem toggle_keyword_breaks_invariant :
    (TMInvB TagManager.empty = true ∧
      TMInvB (TagManager.empty.toggle_keyword_tag ("x".toList)) = false) ∧
    (TMInvB (⟨["a".toList], [], [("i.jpg".toList, ["a".toList, "a".toList])], none⟩ :
        TagManager) = true ∧
      TMInvB ((⟨["a".toList], [], [("i.jpg".toList, ["a".toList, "a".toList])], none⟩ :
        TagManager).remove_tag ("a".toList)) = false) := by
  decide

/-- C2 amended: every TagManager operation preserves the invariant that all
stored image tags and the keyword tag are registered in available_tags,
with the two provisos the code forces: remove_tag needs each image tag list
duplicate-free (it removes only the first occurrence per list), and
toggle_keyword_tag needs its argument registered or equal to the current
keyword (it performs no membership check). -/
theorem tag_ops_preserve_invariant (tm : TagManager) (tag cat t f g : Str)
    (ts : List Str) (hInv : TMInvB tm = true) :
    TMInvB (tm.add_tag tag cat) = true ∧
    TMInvB (tm.add_tags_from_list ts) = true ∧
    ((∀ e ∈ tm.image_tags, e.2.Nodup) → TMInvB (tm.remove_tag t) = true) ∧
    TMInvB (tm.set_keyword_tag t) = true ∧
    TMInvB tm.clear_keyword_tag = true ∧
    ((t ∈ tm.available_tags ∨ tm.keyword_tag = some t) →
      TMInvB (tm.toggle_keyword_tag t) = true) ∧
    TMInvB (tm.apply_tags_to_image f ts) = true ∧
    TMInvB (tm.add_tags_to_image f ts) = true ∧
    TMInvB (tm.remove_tag_from_image f t) = true ∧
    TMInvB (tm.clear_tags_from_image f) = true ∧
    TMInvB (tm.rename_image f g) = true ∧
    TMInvB (tm.remove_image f) = true ∧
    TMInvB tm.clear_all_tags = true := by
  have hProp := (TMInv_iff tm).mp hInv
  obtain ⟨hImg, hKw⟩ := hProp
  refine ⟨add_tag_preserves_inv tm tag cat hInv, ?_, ?_, ?_, ?_, ?_,
    apply_tags_preserves_inv tm f ts hInv, ?_, ?_, ?_, ?_, ?_, ?_⟩
  · -- add_tags_from_list: a fold of conditional add_tag
    unfold TagManager.add_tags_from_list
    clear hImg hKw
    induction ts generalizing tm with
    | nil => exact hInv
    | cons a rest ih =>
      rw [List.foldl_cons]
      by_cases ha : pyStrip a = []
      · rw [if_pos ha]
        exact ih tm hInv
      · rw [if_neg ha]
        exact ih _ (add_tag_preserves_inv tm (pyStrip a) _ hInv)
  · -- remove_tag under duplicate-free image lists
    intro hnd
    rw [TMInv_iff]
    refine ⟨?_, ?_⟩
    · intro e he t2 ht2
      simp only [TagManager.remove_tag, List.mem_map] at he
      obtain ⟨e0, he0, hee⟩ := he
      rw [← hee] at ht2
      have hmem := (List.Nodup.mem_erase_iff (hnd e0 he0)).mp ht2
      have havail := hImg e0 he0 t2 hmem.2
      simp only [TagManager.remove_tag, List.mem_filter]
      exact ⟨havail, by simp [hmem.1]⟩
    · intro k hk
      simp only [TagManager.remove_tag] at hk
      by_cases hkt : tm.keyword_tag = some t
      · rw [if_pos hkt] at hk
        cases hk
      · rw [if_neg hkt] at hk
        have hka := hKw k hk
        have hknet : k ≠ t := by
          intro hh
          rw [hh] at hk
          exact hkt hk
        simp only [TagManager.remove_tag, List.mem_filter]
        exact ⟨hka, by simp [hknet]⟩
  · -- set_keyword_tag
    unfold TagManager.set_keyword_tag
    by_cases h : t ∈ tm.available_tags
    · rw [if_pos h, TMInv_iff]
      refine ⟨hImg, ?_⟩
      intro k hk
      cases hk
      exact h
    · rw [if_neg h]
      exact hInv
  · -- clear_keyword_tag
    rw [TMInv_iff]
    exact ⟨hImg, fun k hk => by cases hk⟩
  · -- toggle_keyword_tag under the registration proviso
    intro hyp
    unfold TagManager.toggle_keyword_tag
    by_cases hkt : tm.keyword_tag = some t
    · rw [if_pos hkt, TMInv_iff]
      exact ⟨hImg, fun k hk => by cases hk⟩
    · rw [if_neg hkt, TMInv_iff]
      have hta : t ∈ tm.available_tags := by
        rcases hyp with hyp | hyp
        · exact hyp
        · exact absurd hyp hkt
      refine ⟨hImg, ?_⟩
      intro k hk
      cases hk
      exact hta
  · -- add_tags_to_image delegates to apply_tags_to_image
    unfold TagManager.add_tags_to_image
    exact apply_tags_preserves_inv tm f _ hInv
  · -- remove_tag_from_image
    unfold TagManager.remove_tag_from_image
    cases hl : dlookup tm.image_tags f with
    | none => exact hInv
    | some ts0 =>
      show TMInvB (if t ∈ ts0 then
        { tm with image_tags := dinsert tm.image_tags f (ts0.erase t) } else tm) = true
      by_cases hmem : t ∈ ts0
      · rw [if_pos hmem, TMInv_iff]
        refine ⟨?_, hKw⟩
        intro e he t2 ht2
        rcases mem_dinsert tm.image_tags f (ts0.erase t) e he with hold | hnew
        · exact hImg e hold t2 ht2
        · rw [hnew] at ht2
          exact hImg (f, ts0) (dlookup_mem tm.image_tags f ts0 hl) t2
            (List.mem_of_mem_erase ht2)
      · rw [if_neg hmem]
        exact hInv
  · -- clear_tags_from_image
    unfold TagManager.clear_tags_from_image
    by_cases h : (dlookup tm.image_tags f).isSome
    · rw [if_pos h, TMInv_iff]
      exact ⟨fun e he => hImg e (mem_derase tm.image_tags f e he), hKw⟩
    · rw [if_neg h]
      exact hInv
  · -- rename_image
    unfold TagManager.rename_image
    cases hl : dlookup tm.image_tags f with
    | none => exact hInv
    | some ts0 =>
      show TMInvB
        { tm with image_tags := derase (dinsert tm.image_tags g ts0) f } = true
      rw [TMInv_iff]
      refine ⟨?_, hKw⟩
      intro e he t2 ht2
      have he2 := mem_derase _ f e he
      rcases mem_dinsert tm.image_tags g ts0 e he2 with hold | hnew
      · exact hImg e hold t2 ht2
      · rw [hnew] at ht2
        exact hImg (f, ts0) (dlookup_mem tm.image_tags f ts0 hl) t2 ht2
  · -- remove_image
    unfold TagManager.remove_image
    by_cases h : (dlookup tm.image_tags f).isSome
    · rw [if_pos h, TMInv_iff]
      exact ⟨fun e he => hImg e (mem_derase tm.image_tags f e he), hKw⟩
    · rw [if_neg h]
      exact hInv
  · -- clear_all_tags
    rfl

/-- Witness for C2 at the concrete store tmKw and tag lists. -/
theorem tag_ops_preserve_invariant_witness :
    TMInvB tmKw = true ∧
    TMInvB (tmKw.add_tag ("b".toList) ("general".toList)) = true ∧
    TMInvB (tmKw.apply_tags_to_image ("j.jpg".toList) ["c".toList]) = true ∧
    TMInvB tmKw.clear_all_tags = true :=
  ⟨by decide,
   (tag_ops_preserve_invariant tmKw ("b".toList) ("general".toList) ("a".toList)
     ("j.jpg".toList) ("k.jpg".toList) ["c".toList] (by decide)).1,
   (tag_ops_preserve_invariant tmKw ("b".toList) ("general".toList) ("a".toList)
     ("j.jpg".toList) ("k.jpg".toList) ["c".toList] (by decide)).2.2.2.2.2.2.1,
   (tag_ops_preserve_invariant tmKw ("b".toList) ("general".toList) ("a".toList)
     ("j.jpg".toList) ("k.jpg".toList) ["c".toList] (by decide)).2.2.2.2.2.2.2.2.2.2.2.2⟩


/-! ## C4: the description round trip -/

theorem goodTag_facts (t : Str) (h : goodTag t = true) :
    t ≠ [] ∧ (∀ c ∈ t, ¬(c = ',' ∨ c = ';')) ∧ isSpaceB (t.headD ' ') = false ∧
      isSpaceB (t.getLastD ' ') = false ∧ normWs t = t ∧ pyStrip t = t := by
  unfold goodTag at h
  simp only [Bool.and_eq_true, Bool.not_eq_true', List.all_eq_true, beq_iff_eq] at h
  obtain ⟨⟨⟨⟨h1, h2⟩, h3⟩, h4⟩, h5⟩ := h
  have hne : t ≠ [] := by
    intro hh
    rw [hh] at h1
    simp at h1
  refine ⟨hne, ?_, h3, h4, h5, pyStrip_eq_self t h3 h4⟩
  intro c hc
  have h6 := h2 c hc
  simpa using h6

theorem splitSepAux_false_cons (c : Char) (rest acc : Str) (hc : ¬(c = ',' ∨ c = ';')) :
    splitSepAux false (c :: rest) acc = splitSepAux false rest (c :: acc) := by
  have hc1 : ¬ c = ',' := fun hh => hc (Or.inl hh)
  have hc2 : ¬ c = ';' := fun hh => hc (Or.inr hh)
  simp [splitSepAux, hc1, hc2]

theorem splitSepAux_append_nosep (t : Str) (ht : ∀ c ∈ t, ¬(c = ',' ∨ c = ';'))
    (r acc : Str) : splitSepAux false (t ++ r) acc = splitSepAux false r (t.reverse ++ acc) := by
  induction t generalizing acc with
  | nil => simp
  | cons c u ih =>
    rw [List.cons_append, splitSepAux_false_cons c (u ++ r) acc
      (ht c (List.mem_cons_self c u))]
    rw [ih (fun d hd => ht d (List.mem_cons_of_mem c hd)) (c :: acc)]
    simp

theorem splitSepAux_true_head (b : Char) (u acc : Str) (hb : isSpaceB b = false) :
    splitSepAux true (b :: u) acc = splitSepAux false (b :: u) acc := by
  simp [splitSepAux, hb]

theorem splitSepAux_comma (rest acc : Str) :
    splitSepAux false (',' :: rest) acc = acc.reverse :: splitSepAux true rest [] := by
  simp [splitSepAux]

theorem splitSepAux_true_space (rest acc : Str) :
    splitSepAux true (' ' :: rest) acc = splitSepAux true rest acc := by
  simp [splitSepAux, isSpaceB]

theorem joinComma_two (t t2 : Str) (r2 : List Str) :
    joinComma (t :: t2 :: r2) = t ++ (',' :: ' ' :: joinComma (t2 :: r2)) := by
  show t ++ ", ".toList ++ joinComma (t2 :: r2) = t ++ (',' :: ' ' :: joinComma (t2 :: r2))
  simp

theorem joinComma_ne_nil (t : Str) (ts : List Str) (ht : t ≠ []) :
    joinComma (t :: ts) ≠ [] := by
  cases ts with
  | nil => exact ht
  | cons t2 r2 =>
    rw [joinComma_two]
    cases t with
    | nil => exact absurd rfl ht
    | cons a u => simp

theorem joinComma_headD (t : Str) (ts : List Str) (ht : t ≠ []) :
    (joinComma (t :: ts)).headD ' ' = t.headD ' ' := by
  cases ts with
  | nil => rfl
  | cons t2 r2 =>
    rw [joinComma_two]
    cases t with
    | nil => exact absurd rfl ht
    | cons a u => rfl

theorem joinComma_getLastD_mem (ts : List Str) (hne : ts ≠ []) (h : ∀ t ∈ ts, t ≠ []) :
    ∃ tl ∈ ts, (joinComma ts).getLastD ' ' = tl.getLastD ' ' := by
  induction ts with
  | nil => exact absurd rfl hne
  | cons t rest ih =>
    cases rest with
    | nil => exact ⟨t, List.mem_cons_self t [], rfl⟩
    | cons t2 r2 =>
      obtain ⟨tl, htl, heq⟩ := ih (by simp) (fun x hx => h x (List.mem_cons_of_mem t hx))
      refine ⟨tl, List.mem_cons_of_mem t htl, ?_⟩
      rw [joinComma_two]
      have hjne : joinComma (t2 :: r2) ≠ [] :=
        joinComma_ne_nil t2 r2 (h t2 (List.mem_cons_of_mem t (List.mem_cons_self t2 r2)))
      have hsplit : t ++ ',' :: ' ' :: joinComma (t2 :: r2) =
          (t ++ [',', ' ']) ++ joinComma (t2 :: r2) := by simp
      rw [hsplit, List.getLastD_eq_getLast?, List.getLast?_append]
      cases hj : (joinComma (t2 :: r2)).getLast? with
      | none =>
        have h2 := List.getLast?_isSome.mpr hjne
        rw [hj] at h2
        simp at h2
      | some x =>
        rw [List.getLastD_eq_getLast?, hj] at heq
        simpa using heq

theorem splitSep_joinComma (ts : List Str) (h : ∀ t ∈ ts, goodTag t = true)
    (hne : ts ≠ []) : splitSepAux false (joinComma ts) [] = ts := by
  induction ts with
  | nil => exact absurd rfl hne
  | cons t rest ih =>
    have hft := goodTag_facts t (h t (List.mem_cons_self t rest))
    cases rest with
    | nil =>
      have hj : joinComma [t] = t ++ [] := by simp [joinComma]
      rw [hj, splitSepAux_append_nosep t hft.2.1 [] []]
      simp [splitSepAux]
    | cons t2 r2 =>
      have hft2 := goodTag_facts t2 (h t2 (List.mem_cons_of_mem t (List.mem_cons_self t2 r2)))
      rw [joinComma_two, splitSepAux_append_nosep t hft.2.1 _ [], splitSepAux_comma,
        splitSepAux_true_space]
      cases hcc : joinComma (t2 :: r2) with
      | nil => exact absurd hcc (joinComma_ne_nil t2 r2 hft2.1)
      | cons b u =>
        have hbhead : b = t2.headD ' ' := by
          have hh := joinComma_headD t2 r2 hft2.1
          rw [hcc] at hh
          simpa using hh
        have hbspace : isSpaceB b = false := by
          rw [hbhead]
          exact hft2.2.2.1
        rw [splitSepAux_true_head b u [] hbspace, ← hcc,
          ih (fun x hx => h x (List.mem_cons_of_mem t hx)) (by simp)]
        simp

theorem filterMap_eq_self (g : α → Option α) (l : List α) (h : ∀ x ∈ l, g x = some x) :
    l.filterMap g = l := by
  induction l with
  | nil => rfl
  | cons a t ih =>
    rw [List.filterMap_cons, h a (List.mem_cons_self a t),
      ih (fun x hx => h x (List.mem_cons_of_mem a hx))]

theorem parse_joinComma (ts : List Str) (h : ∀ t ∈ ts, goodTag t = true) :
    parse_tags_from_text (joinComma ts) = ts := by
  cases ts with
  | nil => rfl
  | cons t rest =>
    have hft := goodTag_facts t (h t (List.mem_cons_self t rest))
    have hjoin_ne : joinComma (t :: rest) ≠ [] := joinComma_ne_nil t rest hft.1
    have hhead : isSpaceB ((joinComma (t :: rest)).headD ' ') = false := by
      rw [joinComma_headD t rest hft.1]
      exact hft.2.2.1
    obtain ⟨tl, htl, hleq⟩ := joinComma_getLastD_mem (t :: rest) (by simp)
      (fun x hx => (goodTag_facts x (h x hx)).1)
    have hlast : isSpaceB ((joinComma (t :: rest)).getLastD ' ') = false := by
      rw [hleq]
      exact (goodTag_facts tl (h tl htl)).2.2.2.1
    have hstripj : pyStrip (joinComma (t :: rest)) = joinComma (t :: rest) :=
      pyStrip_eq_self _ hhead hlast
    unfold parse_tags_from_text
    rw [hstripj, if_neg hjoin_ne]
    rw [show splitSep (joinComma (t :: rest)) = t :: rest from
      splitSep_joinComma _ h (by simp)]
    apply filterMap_eq_self
    intro x hx
    have hfx := goodTag_facts x (h x hx)
    rw [hfx.2.2.2.2.2, if_neg hfx.1, hfx.2.2.2.2.1]

theorem apply_storedTags (tm : TagManager) (f : Str) (ts : List Str) :
    (tm.apply_tags_to_image f ts).storedTags f = cleanTags ts := by
  unfold TagManager.apply_tags_to_image TagManager.storedTags
  rw [foldl_add1_image_tags]
  rw [show ({ tm with image_tags := dinsert tm.image_tags f (cleanTags ts) } :
    TagManager).image_tags = dinsert tm.image_tags f (cleanTags ts) from rfl]
  rw [dlookup_dinsert_self]
  rfl

theorem cleanTags_eq_self (ts : List Str) (h : ∀ t ∈ ts, pyStrip t = t ∧ t ≠ []) :
    cleanTags ts = ts := by
  unfold cleanTags
  apply filterMap_eq_self
  intro x hx
  rw [(h x hx).1, if_neg (h x hx).2]

theorem mem_sortKw_iff (tm : TagManager) (tags : List Str) (x : Str) :
    x ∈ tm.sortKw tags ↔ x ∈ tags := by
  cases hkw : tm.keyword_tag with
  | none => simp [TagManager.sortKw, hkw]
  | some k =>
    simp only [TagManager.sortKw, hkw]
    by_cases hk : k = []
    · simp [hk]
    · by_cases hmem : k ∈ tags
      · rw [if_neg hk, if_pos hmem]
        constructor
        · intro hx
          rcases List.mem_cons.mp hx with hx | hx
          · exact hx ▸ hmem
          · exact (List.mem_filter.mp hx).1
        · intro hx
          by_cases hxk : x = k
          · exact hxk ▸ List.mem_cons_self k _
          · exact List.mem_cons_of_mem k (List.mem_filter.mpr ⟨hx, by simp [hxk]⟩)
      · rw [if_neg hk, if_neg hmem]

/-- C4 counterexample: applying the single tag "a,b", exporting and parsing
back yields the two tags "a" and "b" — the original tag "a,b" is gone, so
tag content is not preserved by the round trip. -/
theorem comma_tag_breaks_roundtrip :
    roundTm2.storedTags ("i.jpg".toList) = ["a".toList, "b".toList] ∧
    "a,b".toList ∈ ["a,b".toList] ∧
    "a,b".toList ∉ roundTm2.storedTags ("i.jpg".toList) := by
  decide

/-- C4 amended: for tags that are non-empty, free of comma and semicolon,
and already whitespace-normalized (no leading/trailing whitespace, no
repeated internal whitespace), applying T, exporting to a description,
parsing it back and re-applying yields exactly the same set of tags as T
(order may change: the keyword moves to the front). -/
theorem tags_description_roundtrip (tm : TagManager) (f : Str) (T : List Str)
    (hT : ∀ t ∈ T, goodTag t = true) :
    ∀ x, (x ∈ ((tm.apply_tags_to_image f T).apply_tags_to_image f
        (parse_tags_from_text
          ((tm.apply_tags_to_image f T).format_tags_for_description
            ((tm.apply_tags_to_image f T).get_tags_for_image f)))).storedTags f ↔
      x ∈ T) := by
  intro x
  have hclean : cleanTags T = T :=
    cleanTags_eq_self T (fun t ht =>
      ⟨(goodTag_facts t (hT t ht)).2.2.2.2.2, (goodTag_facts t (hT t ht)).1⟩)
  have hstored1 : (tm.apply_tags_to_image f T).storedTags f = T := by
    rw [apply_storedTags, hclean]
  have hget : (tm.apply_tags_to_image f T).get_tags_for_image f =
      (tm.apply_tags_to_image f T).sortKw T := by
    unfold TagManager.get_tags_for_image
    rw [hstored1]
  have hT1good : ∀ t ∈ (tm.apply_tags_to_image f T).sortKw T, goodTag t = true :=
    fun t ht => hT t ((mem_sortKw_iff _ T t).mp ht)
  have hformat : (tm.apply_tags_to_image f T).format_tags_for_description
      ((tm.apply_tags_to_image f T).get_tags_for_image f) =
      joinComma ((tm.apply_tags_to_image f T).sortKw T) := by
    rw [hget]
    unfold TagManager.format_tags_for_description
    rw [sortKw_idem]
  rw [hformat, parse_joinComma _ hT1good, apply_storedTags,
    cleanTags_eq_self _ (fun t ht =>
      ⟨(goodTag_facts t (hT1good t ht)).2.2.2.2.2, (goodTag_facts t (hT1good t ht)).1⟩)]
  exact (mem_sortKw_iff _ T x).trans (Iff.rfl)

/-- Witness for C4 with the tags "red hair" and "1girl" on the empty
store. -/
theorem tags_description_roundtrip_witness :
    ["red hair".toList, "1girl".toList].all goodTag = true ∧
    ("red hair".toList ∈
      ((TagManager.empty.apply_tags_to_image ("i.jpg".toList)
          ["red hair".toList, "1girl".toList]).apply_tags_to_image ("i.jpg".toList)
        (parse_tags_from_text
          ((TagManager.empty.apply_tags_to_image ("i.jpg".toList)
              ["red hair".toList, "1girl".toList]).format_tags_for_description
            ((TagManager.empty.apply_tags_to_image ("i.jpg".toList)
                ["red hair".toList, "1girl".toList]).get_tags_for_image
              ("i.jpg".toList))))).storedTags ("i.jpg".toList) ↔
      "red hair".toList ∈ ["red hair".toList, "1girl".toList]) :=
  ⟨by decide,
   tags_description_roundtrip TagManager.empty ("i.jpg".toList)
     ["red hair".toList, "1girl".toList] (by decide) ("red hair".toList)⟩

/-! ## C6: conflicting mass renames fail atomically -/

/-- C6: if any computed target name of the batch differs from its source
file (not a rename-to-itself) and already names an existing file, then
mass_rename_images returns the error dict and the folder — image files,
sidecar .txt files and JSON contents — is completely unchanged. -/
theorem mass_rename_conflict_atomic (fld : RenameFolder) (pfx : Str)
    (imgs : Option (List ImgData)) (so : Bool) (chars : List Char)
    (ifs : List Str) (i : Nat)
    (hscope : renameScope fld imgs = some ifs)
    (hi : i < ifs.length)
    (hne : massTarget pfx ifs.length so chars i (ifs.getD i []) ≠ ifs.getD i [])
    (hcol : massTarget pfx ifs.length so chars i (ifs.getD i []) ∈ fld.files) :
    ∃ msg, mass_rename_images fld pfx imgs so chars = (MRResult.error msg, fld) := by
  have hconf : check_rename_conflicts fld.files pfx ifs
      (max (natToStr ifs.length).length 3) (if so then chars else []) ≠ [] := by
    unfold check_rename_conflicts
    apply List.ne_nil_of_mem (a := massTarget pfx ifs.length so chars i (ifs.getD i []))
    rw [List.mem_filterMap]
    refine ⟨some (massTarget pfx ifs.length so chars i (ifs.getD i [])), ?_, rfl⟩
    have hmem := mem_withIndices (fun j old =>
      let newF := newRenameName pfx (max (natToStr ifs.length).length 3)
        (if (if so then chars else []) ≠ []
          then some ((if so then chars else []).getD j 'z') else none) j old
      if newF = old then none
      else if newF ∈ fld.files then some newF else none) 0 ifs i [] hi
    rw [Nat.zero_add] at hmem
    have hval : (fun j old =>
        let newF := newRenameName pfx (max (natToStr ifs.length).length 3)
          (if (if so then chars else []) ≠ []
            then some ((if so then chars else []).getD j 'z') else none) j old
        if newF = old then none
        else if newF ∈ fld.files then some newF else none) i (ifs.getD i []) =
        some (massTarget pfx ifs.length so chars i (ifs.getD i [])) := by
      show (if massTarget pfx ifs.length so chars i (ifs.getD i []) = ifs.getD i []
        then none
        else if massTarget pfx ifs.length so chars i (ifs.getD i []) ∈ fld.files
          then some (massTarget pfx ifs.length so chars i (ifs.getD i [])) else none) =
        some (massTarget pfx ifs.length so chars i (ifs.getD i []))
      rw [if_neg hne, if_pos hcol]
    rw [hval] at hmem
    exact hmem
  unfold mass_rename_images
  rw [hscope]
  dsimp only
  rw [if_pos hconf]
  exact ⟨_, rfl⟩

/-- Witness for C6: renaming a.jpg with prefix x in a folder already
holding x_001.jpg fails and leaves the folder untouched. -/
theorem mass_rename_conflict_atomic_witness :
    (renameScope fldConflict (some scopeA) = some ["a.jpg".toList] ∧
      0 < (["a.jpg".toList] : List Str).length ∧
      massTarget ("x".toList) (["a.jpg".toList] : List Str).length false [] 0
        ((["a.jpg".toList] : List Str).getD 0 []) ≠
        (["a.jpg".toList] : List Str).getD 0 [] ∧
      massTarget ("x".toList) (["a.jpg".toList] : List Str).length false [] 0
        ((["a.jpg".toList] : List Str).getD 0 []) ∈ fldConflict.files) ∧
    (mass_rename_images fldConflict ("x".toList) (some scopeA) false []).2 = fldConflict := by
  refine ⟨⟨by decide, by decide, by decide, by decide⟩, ?_⟩
  obtain ⟨msg, hmsg⟩ := mass_rename_conflict_atomic fldConflict ("x".toList) (some scopeA)
    false [] ["a.jpg".toList] 0 (by decide) (by decide) (by decide) (by decide)
  rw [hmsg]

/-! ## C1: group store consistency -/

theorem dlookup_dinsert_cases [DecidableEq α] (l : List (α × β)) (k k2 : α) (v w : β)
    (h : dlookup (dinsert l k v) k2 = some w) :
    (k2 = k ∧ w = v) ∨ (k2 ≠ k ∧ dlookup l k2 = some w) := by
  by_cases he : k2 = k
  · subst he
    rw [dlookup_dinsert_self] at h
    cases h
    exact Or.inl ⟨rfl, rfl⟩
  · rw [dlookup_dinsert_ne l k k2 v he] at h
    exact Or.inr ⟨he, h⟩

theorem dlookup_of_mem [DecidableEq α] (l : List (α × β)) (k : α) (v : β)
    (hn : keysNodup l) (h : (k, v) ∈ l) : dlookup l k = some v := by
  induction l with
  | nil => simp at h
  | cons e rest ih =>
    obtain ⟨k0, v0⟩ := e
    rw [keysNodup, List.map_cons, List.nodup_cons] at hn
    rcases List.mem_cons.mp h with h | h
    · injection h with hk hv
      simp [dlookup, hk, hv]
    · have hne : k0 ≠ k := by
        intro hh
        subst hh
        exact hn.1 (List.mem_map.mpr ⟨(k0, v), h, rfl⟩)
      simp [dlookup, hne, ih hn.2 h]

/-- remove_image_from_group: preserves the invariant, keeps next_id, blanks
the image's mapping, and never deletes a group. -/
theorem rifg_preserves (gm : GroupManager) (f : Str) (h : GInv gm) :
    GInv (gm.remove_image_from_group f).2 ∧
    (gm.remove_image_from_group f).2.next_id = gm.next_id ∧
    dlookup (gm.remove_image_from_group f).2.image_to_group f = none ∧
    (∀ gid, (dlookup gm.groups gid).isSome →
      (dlookup (gm.remove_image_from_group f).2.groups gid).isSome) := by
  obtain ⟨hg, hm, h3, h4, h5⟩ := h
  unfold GroupManager.remove_image_from_group
  cases hl : dlookup gm.image_to_group f with
  | none => exact ⟨⟨hg, hm, h3, h4, h5⟩, rfl, hl, fun gid hs => hs⟩
  | some gid =>
    obtain ⟨grp, hgrp, hfin⟩ := h3 f gid hl
    dsimp only
    rw [hgrp]
    dsimp only
    refine ⟨⟨?_, ?_, ?_, ?_, ?_⟩, rfl, ?_, ?_⟩
    · exact keysNodup_dinsert _ _ _ hg
    · exact keysNodup_derase _ _ hm
    · intro f2 gid2 hf2
      by_cases hff : f2 = f
      · subst hff
        rw [dlookup_derase_self _ _ hm] at hf2
        cases hf2
      · rw [dlookup_derase_ne _ f f2 hff] at hf2
        obtain ⟨grp2, hgrp2, hf2in⟩ := h3 f2 gid2 hf2
        by_cases hgg : gid2 = gid
        · subst hgg
          rw [hgrp] at hgrp2
          injection hgrp2 with hgrp2eq
          refine ⟨grp.removeImage f, by rw [dlookup_dinsert_self], ?_⟩
          show f2 ∈ grp.image_filenames.erase f
          rw [List.mem_erase_of_ne hff]
          rw [hgrp2eq]
          exact hf2in
        · exact ⟨grp2, by rw [dlookup_dinsert_ne _ _ _ _ hgg]; exact hgrp2, hf2in⟩
    · intro gid2 grp2 hgrp2
      rcases dlookup_dinsert_cases _ _ _ _ _ hgrp2 with ⟨hgg, hww⟩ | ⟨hgg, hold⟩
      · subst hgg
        subst hww
        constructor
        · exact List.Nodup.erase f (h4 gid2 grp hgrp).1
        · intro f2 hf2
          show dlookup (derase gm.image_to_group f) f2 = some gid2
          have hf2mem : f2 ∈ grp.image_filenames := List.mem_of_mem_erase hf2
          have hf2ne : f2 ≠ f :=
            ((List.Nodup.mem_erase_iff (h4 gid2 grp hgrp).1).mp hf2).1
          rw [dlookup_derase_ne _ _ _ hf2ne]
          exact (h4 gid2 grp hgrp).2 f2 hf2mem
      · have hfacts := h4 gid2 grp2 hold
        refine ⟨hfacts.1, ?_⟩
        intro f2 hf2
        have hmap := hfacts.2 f2 hf2
        have hf2ne : f2 ≠ f := by
          intro hh
          subst hh
          rw [hl] at hmap
          injection hmap with hmapeq
          exact hgg hmapeq.symm
        show dlookup (derase gm.image_to_group f) f2 = some gid2
        rw [dlookup_derase_ne _ _ _ hf2ne]
        exact hmap
    · intro gid2 grp2 hgrp2
      rcases dlookup_dinsert_cases _ _ _ _ _ hgrp2 with ⟨hgg, _⟩ | ⟨_, hold⟩
      · subst hgg
        exact h5 gid2 grp hgrp
      · exact h5 gid2 grp2 hold
    · exact dlookup_derase_self _ _ hm
    · intro gid2 hs
      by_cases hgg : gid2 = gid
      · subst hgg
        rw [show (dlookup (dinsert gm.groups gid2 (grp.removeImage f)) gid2) =
          some (grp.removeImage f) from dlookup_dinsert_self _ _ _]
        rfl
      · show (dlookup (dinsert gm.groups gid (grp.removeImage f)) gid2).isSome = true
        rw [dlookup_dinsert_ne _ _ _ _ hgg]
        exact hs

theorem mem_add_image_self (grp : ImageGroup) (f : Str) :
    f ∈ (grp.add_image f).image_filenames := by
  unfold ImageGroup.add_image
  by_cases h : f ∈ grp.image_filenames
  · simp [h]
  · simp [h]

theorem mem_add_image_mono (grp : ImageGroup) (f x : Str)
    (h : x ∈ grp.image_filenames) : x ∈ (grp.add_image f).image_filenames := by
  unfold ImageGroup.add_image
  by_cases hf : f ∈ grp.image_filenames
  · simpa [hf] using h
  · simp [hf, h]

theorem mem_add_image_cases (grp : ImageGroup) (f x : Str)
    (h : x ∈ (grp.add_image f).image_filenames) :
    x ∈ grp.image_filenames ∨ x = f := by
  unfold ImageGroup.add_image at h
  by_cases hf : f ∈ grp.image_filenames
  · rw [if_pos hf] at h
    exact Or.inl h
  · rw [if_neg hf] at h
    rcases List.mem_append.mp h with h | h
    · exact Or.inl h
    · exact Or.inr (List.mem_singleton.mp h)

theorem nodup_add_image (grp : ImageGroup) (f : Str)
    (h : grp.image_filenames.Nodup) : (grp.add_image f).image_filenames.Nodup := by
  unfold ImageGroup.add_image
  by_cases hf : f ∈ grp.image_filenames
  · simpa [hf] using h
  · rw [if_neg hf]
    show (grp.image_filenames ++ [f]).Nodup
    rw [List.nodup_append]
    exact ⟨h, List.nodup_singleton f, by
      intro x hx hxf
      rw [List.mem_singleton] at hxf
      exact hf (hxf ▸ hx)⟩

theorem rifg_lookup_none_mono (gm : GroupManager) (g f : Str)
    (hm : keysNodup gm.image_to_group)
    (h : dlookup gm.image_to_group f = none) :
    dlookup (gm.remove_image_from_group g).2.image_to_group f = none := by
  unfold GroupManager.remove_image_from_group
  cases hl : dlookup gm.image_to_group g with
  | none => exact h
  | some gid =>
    dsimp only
    cases hgl : dlookup gm.groups gid <;> dsimp only <;>
      by_cases hfg : f = g
    · subst hfg
      exact dlookup_derase_self _ _ hm
    · rw [dlookup_derase_ne _ _ _ hfg]
      exact h
    · subst hfg
      exact dlookup_derase_self _ _ hm
    · rw [dlookup_derase_ne _ _ _ hfg]
      exact h

theorem foldl_rifg_none_mono (files : List Str) (gm : GroupManager) (f : Str)
    (h : GInv gm) (hn : dlookup gm.image_to_group f = none) :
    dlookup ((files.foldl (fun g f => (g.remove_image_from_group f).2) gm).image_to_group)
      f = none := by
  induction files generalizing gm with
  | nil => exact hn
  | cons a t ih =>
    rw [List.foldl_cons]
    exact ih _ (rifg_preserves gm a h).1 (rifg_lookup_none_mono gm a f h.2.1 hn)

theorem foldl_rifg_facts (files : List Str) (gm : GroupManager) (h : GInv gm) :
    GInv (files.foldl (fun g f => (g.remove_image_from_group f).2) gm) ∧
    (files.foldl (fun g f => (g.remove_image_from_group f).2) gm).next_id = gm.next_id ∧
    (∀ f ∈ files, dlookup ((files.foldl (fun g f =>
      (g.remove_image_from_group f).2) gm).image_to_group) f = none) ∧
    (∀ gid, (dlookup gm.groups gid).isSome →
      (dlookup (files.foldl (fun g f =>
        (g.remove_image_from_group f).2) gm).groups gid).isSome) := by
  induction files generalizing gm with
  | nil => exact ⟨h, rfl, by simp, fun gid hs => hs⟩
  | cons a t ih =>
    obtain ⟨h1, h2, h3, h4⟩ := rifg_preserves gm a h
    obtain ⟨ih1, ih2, ih3, ih4⟩ := ih _ h1
    rw [List.foldl_cons]
    refine ⟨ih1, by rw [ih2, h2], ?_, fun gid hs => ih4 gid (h4 gid hs)⟩
    intro f hf
    rcases List.mem_cons.mp hf with hfa | hft
    · subst hfa
      exact foldl_rifg_none_mono t _ f h1 h3
    · exact ih3 f hft

theorem fold_dinsert_lookup (files : List Str) (m : List (Str × Nat)) (gid : Nat) (f : Str) :
    dlookup (files.foldl (fun m f => dinsert m f gid) m) f =
      if f ∈ files then some gid else dlookup m f := by
  induction files generalizing m with
  | nil => simp
  | cons a t ih =>
    rw [List.foldl_cons, ih]
    by_cases hft : f ∈ t
    · simp [hft]
    · by_cases hfa : f = a
      · subst hfa
        simp [hft, dlookup_dinsert_self]
      · simp [hft, hfa, dlookup_dinsert_ne _ _ _ _ hfa]

theorem fold_dinsert_keysNodup (files : List Str) (m : List (Str × Nat)) (gid : Nat)
    (h : keysNodup m) : keysNodup (files.foldl (fun m f => dinsert m f gid) m) := by
  induction files generalizing m with
  | nil => exact h
  | cons a t ih =>
    rw [List.foldl_cons]
    exact ih _ (keysNodup_dinsert m a gid h)

theorem create_preserves (gm : GroupManager) (name : Str) (files : List Str)
    (hnd : files.Nodup) (h : GInv gm) : GInv (gm.create_group name files).2 := by
  obtain ⟨hG1, hNext, hNone, _⟩ := foldl_rifg_facts files gm h
  obtain ⟨hg1, hm1, h31, h41, h51⟩ := hG1
  unfold GroupManager.create_group
  dsimp only
  refine ⟨?_, ?_, ?_, ?_, ?_⟩
  · exact keysNodup_dinsert _ _ _ hg1
  · exact fold_dinsert_keysNodup _ _ _ hm1
  · intro f2 gid2 hf2
    rw [fold_dinsert_lookup] at hf2
    by_cases hmem : f2 ∈ files
    · rw [if_pos hmem] at hf2
      injection hf2 with he
      subst he
      exact ⟨_, dlookup_dinsert_self _ _ _, hmem⟩
    · rw [if_neg hmem] at hf2
      obtain ⟨grp2, hgrp2, hin2⟩ := h31 f2 gid2 hf2
      have hne : gid2 ≠ (files.foldl (fun g f =>
          (g.remove_image_from_group f).2) gm).next_id :=
        Nat.ne_of_lt (h51 gid2 grp2 hgrp2)
      exact ⟨grp2, by rw [dlookup_dinsert_ne _ _ _ _ hne]; exact hgrp2, hin2⟩
  · intro gid2 grp2 hgrp2
    rcases dlookup_dinsert_cases _ _ _ _ _ hgrp2 with ⟨hgg, hww⟩ | ⟨hgg, hold⟩
    · subst hww
      refine ⟨hnd, ?_⟩
      intro f2 hf2
      rw [fold_dinsert_lookup, if_pos hf2, hgg]
    · obtain hfacts := h41 gid2 grp2 hold
      refine ⟨hfacts.1, ?_⟩
      intro f2 hf2
      have hmap := hfacts.2 f2 hf2
      have hnotin : f2 ∉ files := by
        intro hin
        rw [hNone f2 hin] at hmap
        cases hmap
      rw [fold_dinsert_lookup, if_neg hnotin]
      exact hmap
  · intro gid2 grp2 hgrp2
    rcases dlookup_dinsert_cases _ _ _ _ _ hgrp2 with ⟨hgg, _⟩ | ⟨_, hold⟩
    · rw [hgg]
      exact Nat.lt_succ_self _
    · exact Nat.lt_succ_of_lt (h51 gid2 grp2 hold)

theorem addTo_fold_preserves (gid : Nat) (files : List Str) :
    ∀ (g : GroupManager), GInv g → (dlookup g.groups gid).isSome →
    GInv (files.foldl (fun g f =>
      let g := (g.remove_image_from_group f).2
      match dlookup g.groups gid with
      | some grp =>
        { g with groups := dinsert g.groups gid (grp.add_image f),
                 image_to_group := dinsert g.image_to_group f gid }
      | none => { g with image_to_group := dinsert g.image_to_group f gid }) g) ∧
    (dlookup ((files.foldl (fun g f =>
      let g := (g.remove_image_from_group f).2
      match dlookup g.groups gid with
      | some grp =>
        { g with groups := dinsert g.groups gid (grp.add_image f),
                 image_to_group := dinsert g.image_to_group f gid }
      | none => { g with image_to_group := dinsert g.image_to_group f gid }) g).groups)
      gid).isSome := by
  induction files with
  | nil => exact fun g h hs => ⟨h, hs⟩
  | cons a t ih =>
    intro g h hs
    rw [List.foldl_cons]
    obtain ⟨hg', hnext', hnone', hsome'⟩ := rifg_preserves g a h
    have hs' := hsome' gid hs
    obtain ⟨hg1, hm1, h31, h41, h51⟩ := hg'
    cases hgl : dlookup (g.remove_image_from_group a).2.groups gid with
    | none =>
      rw [hgl] at hs'
      simp at hs'
    | some grp =>
      apply ih
      · show GInv (let g := (g.remove_image_from_group a).2
          match dlookup g.groups gid with
          | some grp =>
            { g with groups := dinsert g.groups gid (grp.add_image a),
                     image_to_group := dinsert g.image_to_group a gid }
          | none => { g with image_to_group := dinsert g.image_to_group a gid })
        dsimp only
        rw [hgl]
        dsimp only
        refine ⟨keysNodup_dinsert _ _ _ hg1, keysNodup_dinsert _ _ _ hm1, ?_, ?_, ?_⟩
        · intro f2 gid2 hf2
          rcases dlookup_dinsert_cases _ _ _ _ _ hf2 with ⟨hff, hgg⟩ | ⟨hff, hold⟩
          · subst hff
            subst hgg
            exact ⟨grp.add_image f2, dlookup_dinsert_self _ _ _, mem_add_image_self grp f2⟩
          · obtain ⟨grp2, hgrp2, hin2⟩ := h31 f2 gid2 hold
            by_cases hgg2 : gid2 = gid
            · subst hgg2
              rw [hgl] at hgrp2
              injection hgrp2 with he
              refine ⟨grp.add_image a, dlookup_dinsert_self _ _ _, ?_⟩
              apply mem_add_image_mono
              rw [he]
              exact hin2
            · exact ⟨grp2, by rw [dlookup_dinsert_ne _ _ _ _ hgg2]; exact hgrp2, hin2⟩
        · intro gid2 grp2 hgrp2
          rcases dlookup_dinsert_cases _ _ _ _ _ hgrp2 with ⟨hgg, hww⟩ | ⟨hgg, hold⟩
          · subst hww
            refine ⟨nodup_add_image grp a (h41 gid grp hgl).1, ?_⟩
            intro f2 hf2
            rcases mem_add_image_cases grp a f2 hf2 with hf2m | hf2a
            · by_cases hfa : f2 = a
              · subst hfa
                rw [dlookup_dinsert_self, hgg]
              · rw [dlookup_dinsert_ne _ _ _ _ hfa, hgg]
                exact (h41 gid grp hgl).2 f2 hf2m
            · subst hf2a
              rw [dlookup_dinsert_self, hgg]
          · refine ⟨(h41 gid2 grp2 hold).1, ?_⟩
            intro f2 hf2
            have hmap := (h41 gid2 grp2 hold).2 f2 hf2
            have hne : f2 ≠ a := by
              intro hh
              subst hh
              rw [hnone'] at hmap
              cases hmap
            rw [dlookup_dinsert_ne _ _ _ _ hne]
            exact hmap
        · intro gid2 grp2 hgrp2
          rcases dlookup_dinsert_cases _ _ _ _ _ hgrp2 with ⟨hgg, _⟩ | ⟨_, hold⟩
          · rw [hgg]
            exact h51 gid grp hgl
          · exact h51 gid2 grp2 hold
      · show (dlookup ((let g := (g.remove_image_from_group a).2
          match dlookup g.groups gid with
          | some grp =>
            { g with groups := dinsert g.groups gid (grp.add_image a),
                     image_to_group := dinsert g.image_to_group a gid }
          | none =>
            { g with image_to_group := dinsert g.image_to_group a gid }).groups)
          gid).isSome
        dsimp only
        rw [hgl]
        dsimp only
        rw [dlookup_dinsert_self]
        rfl

theorem addTo_preserves (gm : GroupManager) (gid : Nat) (files : List Str)
    (h : GInv gm) : GInv (gm.add_images_to_group gid files).2 := by
  unfold GroupManager.add_images_to_group
  by_cases hg : (dlookup gm.groups gid).isNone
  · rw [if_pos hg]
    exact h
  · rw [if_neg hg]
    have hs : (dlookup gm.groups gid).isSome := by
      cases hcc : dlookup gm.groups gid with
      | none => rw [hcc] at hg; simp at hg
      | some grp => rfl
    exact (addTo_fold_preserves gid files gm h hs).1

theorem removeFrom_fold_preserves (gid : Nat) (files : List Str) :
    ∀ (g : GroupManager), GInv g →
    GInv (files.foldl (fun g f =>
      let g :=
        match dlookup g.groups gid with
        | some grp => { g with groups := dinsert g.groups gid (grp.removeImage f) }
        | none => g
      if dlookup g.image_to_group f = some gid
      then { g with image_to_group := derase g.image_to_group f }
      else g) g) := by
  induction files with
  | nil => exact fun g h => h
  | cons a t ih =>
    intro g h
    rw [List.foldl_cons]
    apply ih
    obtain ⟨hg1, hm1, h31, h41, h51⟩ := h
    show GInv (let g2 :=
        match dlookup g.groups gid with
        | some grp => { g with groups := dinsert g.groups gid (grp.removeImage a) }
        | none => g
      if dlookup g2.image_to_group a = some gid
      then { g2 with image_to_group := derase g2.image_to_group a }
      else g2)
    cases hgl : dlookup g.groups gid with
    | none =>
      dsimp only
      have hcond : ¬ dlookup g.image_to_group a = some gid := by
        intro hc
        obtain ⟨grp2, hgrp2, _⟩ := h31 a gid hc
        rw [hgl] at hgrp2
        cases hgrp2
      rw [if_neg hcond]
      exact ⟨hg1, hm1, h31, h41, h51⟩
    | some grp =>
      dsimp only
      by_cases hc : dlookup g.image_to_group a = some gid
      · rw [if_pos hc]
        refine ⟨keysNodup_dinsert _ _ _ hg1, keysNodup_derase _ _ hm1, ?_, ?_, ?_⟩
        · intro f2 gid2 hf2
          by_cases hfa : f2 = a
          · subst hfa
            rw [dlookup_derase_self _ _ hm1] at hf2
            cases hf2
          · rw [dlookup_derase_ne _ _ _ hfa] at hf2
            obtain ⟨grp2, hgrp2, hin2⟩ := h31 f2 gid2 hf2
            by_cases hgg : gid2 = gid
            · subst hgg
              rw [hgl] at hgrp2
              injection hgrp2 with he
              refine ⟨grp.removeImage a, dlookup_dinsert_self _ _ _, ?_⟩
              show f2 ∈ grp.image_filenames.erase a
              rw [List.mem_erase_of_ne hfa, he]
              exact hin2
            · exact ⟨grp2, by rw [dlookup_dinsert_ne _ _ _ _ hgg]; exact hgrp2, hin2⟩
        · intro gid2 grp2 hgrp2
          rcases dlookup_dinsert_cases _ _ _ _ _ hgrp2 with ⟨hgg, hww⟩ | ⟨hgg, hold⟩
          · subst hww
            have hnd := (h41 gid grp hgl).1
            refine ⟨List.Nodup.erase a hnd, ?_⟩
            intro f2 hf2
            have hf2m : f2 ∈ grp.image_filenames := List.mem_of_mem_erase hf2
            have hf2ne : f2 ≠ a := ((List.Nodup.mem_erase_iff hnd).mp hf2).1
            rw [dlookup_derase_ne _ _ _ hf2ne, hgg]
            exact (h41 gid grp hgl).2 f2 hf2m
          · refine ⟨(h41 gid2 grp2 hold).1, ?_⟩
            intro f2 hf2
            have hmap := (h41 gid2 grp2 hold).2 f2 hf2
            have hne : f2 ≠ a := by
              intro hh
              subst hh
              rw [hc] at hmap
              injection hmap with he2
              exact hgg he2.symm
            rw [dlookup_derase_ne _ _ _ hne]
            exact hmap
        · intro gid2 grp2 hgrp2
          rcases dlookup_dinsert_cases _ _ _ _ _ hgrp2 with ⟨hgg, _⟩ | ⟨_, hold⟩
          · rw [hgg]
            exact h51 gid grp hgl
          · exact h51 gid2 grp2 hold
      · rw [if_neg hc]
        refine ⟨keysNodup_dinsert _ _ _ hg1, hm1, ?_, ?_, ?_⟩
        · intro f2 gid2 hf2
          obtain ⟨grp2, hgrp2, hin2⟩ := h31 f2 gid2 hf2
          by_cases hgg : gid2 = gid
          · subst hgg
            rw [hgl] at hgrp2
            injection hgrp2 with he
            refine ⟨grp.removeImage a, dlookup_dinsert_self _ _ _, ?_⟩
            show f2 ∈ grp.image_filenames.erase a
            have hf2ne : f2 ≠ a := by
              intro hh
              subst hh
              exact hc hf2
            rw [List.mem_erase_of_ne hf2ne, he]
            exact hin2
          · exact ⟨grp2, by rw [dlookup_dinsert_ne _ _ _ _ hgg]; exact hgrp2, hin2⟩
        · intro gid2 grp2 hgrp2
          rcases dlookup_dinsert_cases _ _ _ _ _ hgrp2 with ⟨hgg, hww⟩ | ⟨hgg, hold⟩
          · subst hww
            have hnd := (h41 gid grp hgl).1
            refine ⟨List.Nodup.erase a hnd, ?_⟩
            intro f2 hf2
            rw [hgg]
            exact (h41 gid grp hgl).2 f2 (List.mem_of_mem_erase hf2)
          · exact h41 gid2 grp2 hold
        · intro gid2 grp2 hgrp2
          rcases dlookup_dinsert_cases _ _ _ _ _ hgrp2 with ⟨hgg, _⟩ | ⟨_, hold⟩
          · rw [hgg]
            exact h51 gid grp hgl
          · exact h51 gid2 grp2 hold

theorem removeFrom_preserves (gm : GroupManager) (gid : Nat) (files : List Str)
    (h : GInv gm) : GInv (gm.remove_images_from_group gid files).2 := by
  unfold GroupManager.remove_images_from_group
  by_cases hg : (dlookup gm.groups gid).isNone
  · rw [if_pos hg]
    exact h
  · rw [if_neg hg]
    exact removeFrom_fold_preserves gid files gm h

theorem GInv_empty : GInv GroupManager.empty := by
  refine ⟨by simp [GroupManager.empty, keysNodup], by simp [GroupManager.empty, keysNodup],
    ?_, ?_, ?_⟩ <;>
    intro a b hb <;> simp [GroupManager.empty, dlookup] at hb

theorem foldl_applyOp_inv : ∀ (ops : List GroupOp) (gm : GroupManager), GInv gm →
    (∀ name files, GroupOp.create name files ∈ ops → files.Nodup) →
    GInv (ops.foldl GroupManager.applyOp gm) := by
  intro ops
  induction ops with
  | nil => exact fun gm h _ => h
  | cons op rest ih =>
    intro gm h hnd
    rw [List.foldl_cons]
    apply ih
    · cases op with
      | create name files =>
        exact create_preserves gm name files (hnd name files (List.mem_cons_self _ _)) h
      | addTo gid files => exact addTo_preserves gm gid files h
      | removeFrom gid files => exact removeFrom_preserves gm gid files h
    · exact fun name files hmem => hnd name files (List.mem_cons_of_mem op hmem)

theorem validate_empty_of_inv (gm : GroupManager) (h : GInv gm) :
    gm.validate_consistency = [] := by
  obtain ⟨hg, hm, h3, h4, h5⟩ := h
  unfold GroupManager.validate_consistency
  rw [List.append_eq_nil]
  constructor
  · rw [List.filterMap_eq_nil_iff]
    intro e he
    obtain ⟨f, gid⟩ := e
    have hl : dlookup gm.image_to_group f = some gid := dlookup_of_mem _ _ _ hm he
    obtain ⟨grp, hgrp, _⟩ := h3 f gid hl
    simp [hgrp]
  · rw [List.flatMap_eq_nil_iff]
    intro e he
    obtain ⟨gid, grp⟩ := e
    rw [List.filterMap_eq_nil_iff]
    intro f hf
    have hl : dlookup gm.groups gid = some grp := dlookup_of_mem _ _ _ hg he
    have hmap := (h4 gid grp hl).2 f hf
    simp [hmap]

/-- C1 counterexample: createGroup stores its argument list as-is, so a
duplicated filename in the list survives; a later removeImagesFromGroup
removes only the first occurrence (Python list.remove) while deleting the
mapping, after which validate_consistency reports the orphaned member. -/
theorem duplicate_create_breaks_consistency :
    (GroupManager.run [GroupOp.create ("g".toList) ["a".toList, "a".toList],
      GroupOp.removeFrom 0 ["a".toList]]).validate_consistency =
      [Issue.memberNotMapped 0 ("a".toList)] ∧
    (GroupManager.run [GroupOp.create ("g".toList) ["a".toList, "a".toList],
      GroupOp.removeFrom 0 ["a".toList]]).validate_consistency ≠ [] := by
  decide

/-- C1 amended: for every sequence of createGroup, addImagesToGroup and
removeImagesFromGroup calls from the empty store in which each createGroup
receives a duplicate-free image list, validate_consistency afterwards
returns the empty list, every mapping entry points at an existing group
whose member list contains the filename, and every filename belongs to at
most one group. -/
theorem groupStore_sequences_consistent (ops : List GroupOp)
    (hnd : ∀ name files, GroupOp.create name files ∈ ops → files.Nodup) :
    (GroupManager.run ops).validate_consistency = [] ∧
    (∀ f gid, (f, gid) ∈ (GroupManager.run ops).image_to_group →
      ∃ grp, dlookup (GroupManager.run ops).groups gid = some grp ∧
        f ∈ grp.image_filenames) ∧
    (∀ f gid1 grp1 gid2 grp2, (gid1, grp1) ∈ (GroupManager.run ops).groups →
      (gid2, grp2) ∈ (GroupManager.run ops).groups →
      f ∈ grp1.image_filenames → f ∈ grp2.image_filenames → gid1 = gid2) := by
  have hinv : GInv (GroupManager.run ops) :=
    foldl_applyOp_inv ops GroupManager.empty GInv_empty hnd
  obtain ⟨hg, hm, h3, h4, h5⟩ := hinv
  refine ⟨validate_empty_of_inv _ ⟨hg, hm, h3, h4, h5⟩, ?_, ?_⟩
  · intro f gid hmem
    exact h3 f gid (dlookup_of_mem _ _ _ hm hmem)
  · intro f gid1 grp1 gid2 grp2 hmm1 hmm2 hf1 hf2
    have l1 := (h4 gid1 grp1 (dlookup_of_mem _ _ _ hg hmm1)).2 f hf1
    have l2 := (h4 gid2 grp2 (dlookup_of_mem _ _ _ hg hmm2)).2 f hf2
    rw [l1] at l2
    injection l2

/-- Witness for C1 on a three-operation sequence with duplicate-free
creation lists. -/
theorem groupStore_sequences_consistent_witness :
    (GroupManager.run [GroupOp.create ("g".toList) ["a".toList, "b".toList],
      GroupOp.addTo 0 ["c".toList],
      GroupOp.removeFrom 0 ["a".toList]]).validate_consistency = [] := by
  have h := groupStore_sequences_consistent
    [GroupOp.create ("g".toList) ["a".toList, "b".toList],
      GroupOp.addTo 0 ["c".toList], GroupOp.removeFrom 0 ["a".toList]] ?hnd
  · exact h.1
  case hnd =>
    intro name files hmem
    simp only [List.mem_cons, List.mem_singleton] at hmem
    rcases hmem with hmem | hmem | hmem | hmem
    · rw [GroupOp.create.injEq] at hmem
      rw [hmem.2]
      decide
    · cases hmem
    · cases hmem
    · cases hmem
